import Mathlib

/-!
Verification development for the `qpydoc` documentation generator
(source: `src/qpydoc/__init__.py`).

The development shallowly embeds the pure core of the program:

* Python string primitives (`str.replace`, `str.strip`, prefix tests)
  as executable functions on `List Char`;
* a backtracking regular-expression engine covering exactly the
  constructs used by the two regular expressions of the source
  (character classes, literals, greedy and lazy repetition, capturing
  groups, backreferences, negative lookahead, multiline anchors),
  with Python `re` semantics (leftmost match, ordered alternation,
  greedy backtracking, `finditer` advancing past each match);
* `process_doctest`, `process_rst_args`, `list_submodules` and
  `walk_submodules` translated clause by clause from the source,
  with module import and attribute lookup abstracted as an
  environment `Env : String → Option Module`.
-/

namespace Qpydoc

/-! ### Python string primitives -/

/-- Python `str.isspace` for the ASCII whitespace characters
(the only whitespace characters appearing in the embedded texts). -/
def isPySpace (c : Char) : Bool :=
  c == ' ' || c == '\t' || c == '\n' || c == '\r' || c == '\x0b' || c == '\x0c'

/-- Auxiliary recursion for `pyReplace`, fueled by the length of the
haystack (each step consumes at least one character when `old` is
nonempty). -/
def pyReplaceAux (old new : List Char) : Nat → List Char → List Char
  | 0, s => s
  | fuel+1, s =>
    if old.isPrefixOf s then new ++ pyReplaceAux old new fuel (s.drop old.length)
    else
      match s with
      | [] => []
      | c :: rest => c :: pyReplaceAux old new fuel rest

/-- Python `s.replace(old, new)`: every non-overlapping occurrence of
`old`, scanned left to right, is replaced by `new`.  For `old = ""`
Python inserts `new` at every character boundary. -/
def pyReplace (s old new : List Char) : List Char :=
  if old.isEmpty then new ++ s.flatMap (fun c => c :: new)
  else pyReplaceAux old new s.length s

/-- Python `str.strip()` (whitespace on both ends removed). -/
def pyStrip (s : List Char) : List Char :=
  ((s.dropWhile isPySpace).reverse.dropWhile isPySpace).reverse

/-- Whether `needle` occurs as a contiguous substring of `hay`
(Python `needle in hay`). -/
def occursAux (needle : List Char) : Nat → List Char → Bool
  | 0, s => needle.isPrefixOf s
  | fuel+1, s =>
    needle.isPrefixOf s ||
      match s with
      | [] => false
      | _ :: rest => occursAux needle fuel rest

/-- String-level substring test. -/
def occurs (needle hay : String) : Bool :=
  occursAux needle.data hay.data.length hay.data

/-- Python `str.lstrip(chars)`: strip leading characters belonging to
the given character set. -/
def pyLstripSet (set : List Char) (s : List Char) : List Char :=
  s.dropWhile (fun c => set.contains c)

/-- Python `str.rstrip(chars)`. -/
def pyRstripSet (set : List Char) (s : List Char) : List Char :=
  ((s.reverse).dropWhile (fun c => set.contains c)).reverse

/-! ### Regular-expression engine

An abstract syntax tree for the regular-expression fragment used by
`process_doctest` and `process_rst_args`, with a fueled backtracking
matcher in continuation-passing style implementing Python `re`
semantics: alternation prefers the left branch, greedy repetition
prefers more iterations, lazy repetition prefers fewer, a quantified
zero-width assertion matches exactly once, and `MULTILINE` anchors
match at line boundaries. -/

inductive RE where
  | eps
  | pred (p : Char → Bool)
  | lit (cs : List Char)
  | seq (a b : RE)
  | alt (a b : RE)
  | star (a : RE)
  | lazystar (a : RE)
  | group (n : Nat) (a : RE)
  | backref (n : Nat)
  | nla (a : RE)
  | bol
  | eol

/-- Capture table: for each group index, the span of its last match. -/
abbrev Groups := List (Option (Nat × Nat))

/-- Character at an index. -/
def getc (s : List Char) (i : Nat) : Option Char := (s.drop i).head?

/-- Record a capture. -/
def setg (g : Groups) (n : Nat) (v : Nat × Nat) : Groups := g.set n (some v)

/-- The backtracking matcher.  `M s fuel re pos g k` attempts to match
`re` at position `pos` of `s` with capture table `g` and continuation
`k`; the first (highest-priority) overall success is returned.  The
fuel bounds the nesting depth of attempts and is chosen large enough
for all concrete uses. -/
def M (s : List Char) : Nat → RE → Nat → Groups →
    (Nat → Groups → Option (Nat × Groups)) → Option (Nat × Groups)
  | 0, _, _, _, _ => none
  | fuel+1, re, pos, g, k =>
    match re with
    | .eps => k pos g
    | .pred p =>
      match getc s pos with
      | some c => if p c then k (pos+1) g else none
      | none => none
    | .lit cs =>
      if pos + cs.length ≤ s.length ∧ (s.drop pos).take cs.length = cs then
        k (pos + cs.length) g
      else none
    | .seq a b => M s fuel a pos g (fun p2 g2 => M s fuel b p2 g2 k)
    | .alt a b =>
      match M s fuel a pos g k with
      | some r => some r
      | none => M s fuel b pos g k
    | .star a =>
      match M s fuel a pos g
          (fun p2 g2 => if p2 ≤ pos then none else M s fuel (.star a) p2 g2 k) with
      | some r => some r
      | none => k pos g
    | .lazystar a =>
      match k pos g with
      | some r => some r
      | none =>
        M s fuel a pos g
          (fun p2 g2 => if p2 ≤ pos then none else M s fuel (.lazystar a) p2 g2 k)
    | .group n a => M s fuel a pos g (fun p2 g2 => k p2 (setg g2 n (pos, p2)))
    | .backref n =>
      match g.getD n none with
      | some (a, b) =>
        if pos + (b - a) ≤ s.length ∧
            (s.drop pos).take (b - a) = (s.drop a).take (b - a) then
          k (pos + (b - a)) g
        else none
      | none => none
    | .nla a =>
      match M s fuel a pos g (fun p2 g2 => some (p2, g2)) with
      | some _ => none
      | none => k pos g
    | .bol => if pos = 0 ∨ getc s (pos - 1) = some '\n' then k pos g else none
    | .eol => if pos = s.length ∨ getc s pos = some '\n' then k pos g else none

/-- One-or-more repetition (greedy). -/
def REplus (a : RE) : RE := .seq a (.star a)

/-- Optional (greedy). -/
def REopt (a : RE) : RE := .alt a .eps

/-- A successful match: overall span plus captures. -/
structure REMatch where
  start : Nat
  stop : Nat
  groups : Groups
deriving DecidableEq, Repr

/-- Fuel for the matcher: generous bound on attempt nesting depth. -/
def mFuel (s : List Char) : Nat := 4 * s.length + 64

/-- Empty capture table (eight group slots suffice for both patterns). -/
def g0 : Groups := List.replicate 8 none

/-- Try a match starting exactly at `pos`. -/
def matchAt (re : RE) (s : List Char) (pos : Nat) : Option REMatch :=
  match M s (mFuel s) re pos g0 (fun p g => some (p, g)) with
  | some (e, g) => some ⟨pos, e, g⟩
  | none => none

/-- Leftmost match at a position `≥ pos` (Python `re.search` from `pos`). -/
def reSearchFrom (re : RE) (s : List Char) : Nat → Nat → Option REMatch
  | 0, _ => none
  | fuel+1, pos =>
    match matchAt re s pos with
    | some m => some m
    | none => if s.length ≤ pos then none else reSearchFrom re s fuel (pos+1)

/-- Python `re.search`. -/
def reSearch (re : RE) (s : List Char) : Option REMatch :=
  reSearchFrom re s (s.length + 1) 0

/-- Python `re.finditer`: successive non-overlapping leftmost matches,
advancing past each match (by one position after an empty match). -/
def finditerAux (re : RE) (s : List Char) : Nat → Nat → List REMatch
  | 0, _ => []
  | fuel+1, pos =>
    if s.length < pos then []
    else
      match reSearchFrom re s (s.length + 1 - pos) pos with
      | none => []
      | some m =>
        m :: finditerAux re s fuel (if m.start < m.stop then m.stop else m.start + 1)

/-- All matches of `re` in `s`. -/
def finditer (re : RE) (s : List Char) : List REMatch :=
  finditerAux re s (s.length + 1) 0

/-- Text of a capture group (empty for an unset group). -/
def grpText (s : List Char) (m : REMatch) (n : Nat) : List Char :=
  match m.groups.getD n none with
  | some (a, b) => (s.drop a).take (b - a)
  | none => []

/-- Whether a capture group participated in the match. -/
def grpSet (m : REMatch) (n : Nat) : Bool :=
  (m.groups.getD n none).isSome

/-- Success transformer for the matcher: matching `re` at `pos`
reaches `pos2` with captures `g2` along the highest-priority path, so
whenever the continuation succeeds there, the whole match returns
that result (given at least `need` fuel). -/
def KSucc (s : List Char) (re : RE) (pos pos2 : Nat) (g g2 : Groups)
    (need : Nat) : Prop :=
  ∀ F k r, need ≤ F → k pos2 g2 = some r → M s F re pos g k = some r

/-- `re` fails to match at `pos`, for every fuel and continuation. -/
def FailAll (s : List Char) (re : RE) (pos : Nat) (g : Groups) : Prop :=
  ∀ F k, M s F re pos g k = none

/-- Deterministic fragment: matching `re` at `pos` either passes
through to `pos2` with captures `g2` (calling the continuation exactly
once) or runs out of fuel and returns `none`. -/
def DetN (s : List Char) (re : RE) (pos pos2 : Nat) (g g2 : Groups) : Prop :=
  ∀ F k, M s F re pos g k = k pos2 g2 ∨ M s F re pos g k = none

/-! ### The doctest pattern and `process_doctest`

Source pattern (flags `re.MULTILINE`):

  (?P<code>^(?P<indent>[ \t]*)>>> \S+.*(\n(?P=indent)\.\.\.\s+.*$)*)
  (?P<output>(\n(?P=indent)(?!>>>)+.*$|\n(?!\n\n))*)

Group numbering here: 1 = `code`, 2 = `indent`, 4 = `output` (the
unnamed repetition groups 3 and 5 are never consulted and are encoded
without capture, which does not affect matching).  The quantified
zero-width assertion `(?!>>>)+` matches exactly once in Python and is
encoded as a single lookahead. -/

/-- `.` (any character except newline). -/
def chDot : RE := .pred (fun c => c != '\n')

/-- `\S`. -/
def chNS : RE := .pred (fun c => !(isPySpace c))

/-- `\s`. -/
def chS : RE := .pred isPySpace

/-- `[ \t]`. -/
def chBlank : RE := .pred (fun c => c == ' ' || c == '\t')

/-- The compiled `pattern_doctest`. -/
def pdPat : RE :=
  .seq
    (.group 1 (.seq .bol (.seq (.group 2 (.star chBlank))
      (.seq (.lit ">>> ".data) (.seq (REplus chNS) (.seq (.star chDot)
        (.star (.seq (.lit "\n".data) (.seq (.backref 2) (.seq (.lit "...".data)
          (.seq (REplus chS) (.seq (.star chDot) .eol))))))))))))
    (.group 4 (.star (.alt
      (.seq (.lit "\n".data) (.seq (.backref 2)
        (.seq (.nla (.lit ">>>".data)) (.seq (.star chDot) .eol))))
      (.seq (.lit "\n".data) (.nla (.lit "\n\n".data))))))

/-- Loop body of `process_doctest`: handle one match `m` (found on the
original document `s`) inside the accumulator `acc`. -/
def pdStep (s : List Char) (acc : List Char) (m : REMatch) : List Char :=
  let indentStr := grpText s m 2
  let orgCode0 := grpText s m 1
  let output := grpText s m 4
  let outStripped := pyStrip output
  let acc1 := pyReplace acc outStripped []
  let orgCode := pyReplace orgCode0 outStripped []
  let codeStr := pyReplace (pyReplace orgCode ">>> ".data []) "... ".data []
  let fenced := indentStr ++ ("```\x7bpython\x7d\n".data) ++ codeStr
    ++ ("\n".data) ++ indentStr ++ ("```".data)
  pyReplace acc1 orgCode fenced

/-- `process_doctest` from the source: find every doctest block in the
original document, and for each one delete its stripped recorded
output everywhere and replace the (output-stripped) code by a fenced
code block with the prompt markers removed. -/
def process_doctest (doc : String) : String :=
  String.mk ((finditer pdPat doc.data).foldl (pdStep doc.data) doc.data)

/-- A single-block document: one prompt line `>>> e` followed by one
recorded output line `y` (the family over which the doctest-folding
behaviour is characterized symbolically). -/
def sblock (e y : List Char) : List Char :=
  ">>> ".data ++ (e ++ '\n' :: y)

/-! ### Field-list patterns and `process_rst_args`

Source patterns (flags `re.MULTILINE` for the last two):

  (list|tuple|Literal|Union|Optional)\[.*?\]
  ^[ \t]*:(param|return|raises)\s+.*:
  ^(?P<indent>[ \t]*):(?P<field_type>param|return|raises)\s+
      (?P<type>\S+)(\s+(?P<name>\S+))?:(?P<comment>.*)$

Group numbering for the substitution pattern: 1 = `indent`,
2 = `field_type`, 3 = `type`, 5 = `name`, 6 = `comment`. -/

/-- The bracket pattern whose first match gets its spaces removed. -/
def litBracketPat : RE :=
  .seq (.alt (.lit "list".data) (.alt (.lit "tuple".data)
      (.alt (.lit "Literal".data) (.alt (.lit "Union".data) (.lit "Optional".data)))))
    (.seq (.lit "[".data) (.seq (.lazystar chDot) (.lit "]".data)))

/-- The gating pattern deciding whether a signature block is inserted. -/
def gatePat : RE :=
  .seq .bol (.seq (.star chBlank) (.seq (.lit ":".data)
    (.seq (.alt (.lit "param".data) (.alt (.lit "return".data) (.lit "raises".data)))
      (.seq (REplus chS) (.seq (.star chDot) (.lit ":".data))))))

/-- The substitution pattern for field-list lines. -/
def fieldPat : RE :=
  .seq .bol (.seq (.group 1 (.star chBlank)) (.seq (.lit ":".data)
    (.seq (.group 2 (.alt (.lit "param".data)
        (.alt (.lit "return".data) (.lit "raises".data))))
      (.seq (REplus chS) (.seq (.group 3 (REplus chNS))
        (.seq (REopt (.seq (REplus chS) (.group 5 (REplus chNS))))
          (.seq (.lit ":".data) (.seq (.group 6 (.star chDot)) .eol))))))))

/-- Python `re.sub` with a replacement function: splice the
replacements of all `finditer` matches into the subject. -/
def reSubSplice (s : List Char) (repl : REMatch → List Char) :
    List REMatch → Nat → List Char
  | [], pos => s.drop pos
  | m :: rest, pos =>
    ((s.drop pos).take (m.start - pos)) ++ repl m ++ reSubSplice s repl rest m.stop

/-- Python `re.sub(pat, repl, s)` for a replacement function. -/
def reSub (re : RE) (repl : REMatch → List Char) (s : List Char) : List Char :=
  reSubSplice s repl (finditer re s) 0

/-- The replacement function `repl` of `process_rst_args`.  An absent
`name` group is Python `None` and formats as the string `"None"`.
The localized labels come from the message catalog `gettext`. -/
def replField (gettext : String → String) (s : List Char) (m : REMatch) : List Char :=
  let ind := grpText s m 1
  let fieldType := grpText s m 2
  let argType := grpText s m 3
  let argName := if grpSet m 5 then grpText s m 5 else "None".data
  let comment := grpText s m 6
  if fieldType = "param".data then
    ind ++ "- `".data ++ argName ++ "` (`".data ++ argType ++ "`):".data ++ comment
  else if fieldType = "return".data then
    ind ++ "- ".data ++ (gettext "RETURN").data
      ++ " (`".data ++ argType ++ "`):".data ++ comment
  else if fieldType = "raises".data then
    ind ++ "- ".data ++ (gettext "RAISE").data
      ++ " (`".data ++ argType ++ ")`:".data ++ comment
  else []

/-- A Python callable as consumed by `process_rst_args`: its
`__name__`, the rendered parameter strings of `signature(func)`, and
`str(signature(func).return_annotation)` when annotated. -/
structure PyFunc where
  name : String
  params : List String
  retAnnotation : Option String
deriving DecidableEq, Repr

/-- The synthesized signature text, before `autopep8.fix_code`. -/
def buildSig (f : PyFunc) : String :=
  let base :=
    if f.params.isEmpty then f.name ++ "()"
    else f.name ++ "(\n" ++ String.join (f.params.map (fun v => "    " ++ v ++ ",\n")) ++ ")"
  match f.retAnnotation with
  | some r =>
    let r1 := pyRstripSet "'>".data (pyLstripSet "<class '".data r.data)
    base ++ " -> " ++ String.mk r1 ++ "\n"
  | none => base ++ "\n"

/-- `process_rst_args` from the source.  The external dependencies are
parameters: `gettext` is the loaded message catalog and `fixCode` is
`autopep8.fix_code`. -/
def process_rst_args (gettext fixCode : String → String) (doc : String)
    (func : PyFunc) : String :=
  let s := doc.data
  -- process spaces in Literal brackets (first match only, replaced globally)
  let s :=
    match reSearch litBracketPat s with
    | some m =>
      let orgStr := (s.drop m.start).take (m.stop - m.start)
      pyReplace s orgStr (orgStr.filter (fun c => c != ' '))
    | none => s
  -- process params
  match reSearch gatePat s with
  | none => String.mk s
  | some m =>
    let sigStr := fixCode (buildSig func)
    let s2 := s.take m.start ++ ("\n```python\n" ++ sigStr ++ "```\n").data
      ++ s.drop m.start
    String.mk (reSub fieldPat (replField gettext s2) s2)

/-! ### Modules, `list_submodules` and `walk_submodules`

The introspection layer is abstracted as an environment mapping a full
dotted name to the module it resolves to (`none` when
`pkgutil.resolve_name` / `importlib.import_module` raises).  A
`Module` carries exactly the attributes the source consults:
`__name__`, `__all__` (when declared), `__exclude_submodule__`
(default `[]`), `__module_order__` (when declared) and the names
enumerated by `pkgutil.iter_modules` on its directory. -/

structure Module where
  name : String
  all : Option (List String) := none
  exclude : List String := []
  order : Option Int := none
  children : List String := []
deriving DecidableEq, Repr

/-- The host module-lookup mechanism. -/
def Env := String → Option Module

/-- The last dot-separated segment of a dotted name,
Python `x.split(".")[-1]`. -/
def lastSegment (x : String) : List Char :=
  (x.data.reverse.takeWhile (fun c => c != '.')).reverse

/-- Python `not x.split(".")[-1].startswith("_")`. -/
def noUnderscore (x : String) : Bool :=
  match lastSegment x with
  | [] => true
  | c :: _ => c != '_'

/-- Python string comparison: lexicographic by code point. -/
def charLe : List Char → List Char → Bool
  | [], _ => true
  | _ :: _, [] => false
  | a :: as, b :: bs => if a < b then true else if b < a then false else charLe as bs

/-- Python `a <= b` on strings. -/
def strLe (a b : String) : Bool := charLe a.data b.data

/-- The comparison used by `sorted(sort_data)`: lexicographic on the
key `(order, fname)`.  Python compares the module component only when
two keys are equal (and then raises, since modules are not ordered),
which requires two identical enumerated names; for all other inputs
the tuple comparison is exactly this relation.  Python `sorted` is a
stable sort, and a stable sort with respect to a total preorder is
unique, so the stable `List.insertionSort` below computes the same
list as Python `sorted`. -/
def keyLE (a b : (Int × String) × Module) : Prop :=
  a.1.1 < b.1.1 ∨ (a.1.1 = b.1.1 ∧ strLe a.1.2 b.1.2 = true)

instance : DecidableRel keyLE := fun a b =>
  inferInstanceAs (Decidable (a.1.1 < b.1.1 ∨ (a.1.1 = b.1.1 ∧ strLe a.1.2 b.1.2 = true)))

/-- The name-filtering stage of `list_submodules`: enumerate the
dotted names of the candidate children, keep only those on `__all__`
when it is declared, remove those on `__exclude_submodule__`, and
remove names whose last segment starts with an underscore -- in
exactly the order of the source. -/
def filteredNames (mod_fname : String) (mod : Module) : List String :=
  let submod_fnames := mod.children.map (fun n => mod_fname ++ "." ++ n)
  -- filter out modules not in __all__
  let submod_fnames :=
    match mod.all with
    | some allAttrs =>
      let all_fnames := allAttrs.map (fun n => mod_fname ++ "." ++ n)
      submod_fnames.filter (fun n => all_fnames.contains n)
    | none => submod_fnames
  -- filter out modules in __exclude_submodule__
  let ex_fnames := mod.exclude.map (fun n => mod_fname ++ "." ++ n)
  let submod_fnames := submod_fnames.filter (fun n => !(ex_fnames.contains n))
  -- filter out modules which start with an underscore
  submod_fnames.filter noUnderscore

/-- The sorted key/module pairs built by `list_submodules` (exposed so
that ordering statements can speak about the keys actually sorted on):
the filtered names are imported (failures dropped), the keys are built as
`(__module_order__ or count-of-survivors, dotted name)` -- the names
zipped positionally from the pre-import list, exactly as in the
source -- and sort stably. -/
def sortDataOf (env : Env) (mod_fname : String) (mod : Module) :
    List ((Int × String) × Module) :=
  let submod_fnames := filteredNames mod_fname mod
  -- get all modules
  let all_mod := submod_fnames.filterMap env
  -- sort by __module_order__ and name
  let num_mod := all_mod.length
  let mod_order := all_mod.map (fun m => m.order.getD (num_mod : Int))
  List.insertionSort keyLE ((mod_order.zip submod_fnames).zip all_mod)

/-- Body of `list_submodules` once the parent module has been
resolved. -/
def list_submodules_core (env : Env) (mod_fname : String) (mod : Module) :
    List Module :=
  (sortDataOf env mod_fname mod).map Prod.snd

/-- The sorted key/module pairs, `none` when resolving the parent
raises. -/
def list_submodules_sort_data (env : Env) (mod_fname : String) :
    Option (List ((Int × String) × Module)) :=
  (env mod_fname).map (sortDataOf env mod_fname)

/-- `list_submodules`: `none` when resolving the parent raises. -/
def list_submodules (env : Env) (mod_fname : String) : Option (List Module) :=
  (env mod_fname).map (list_submodules_core env mod_fname)

/-- The nested result structure accumulated in `module_tree`: each
entry pairs a module with the list of its children's subtrees. -/
inductive ModTree where
  | node (mod : Module) (children : List ModTree)
deriving Repr

/-- Callback invocations, in the order the walker performs them. -/
inductive Event where
  | onMod (m : Module)
  | onSubmod (parent child : Module)
deriving DecidableEq, Repr

/-- The loop over `list_submodules(mod_fname)` inside
`walk_submodules`, abstracted over the recursive call `step` (the
walk into a child, always with a fresh list): fire
`on_submod(mod, submod)`, recurse, and concatenate the child
subtrees. -/
def walk_children (step : String → Option (List ModTree × List Event))
    (mod : Module) : List Module → Option (List ModTree × List Event)
  | [] => some ([], [])
  | s :: rest =>
    match step s.name with
    | none => none
    | some (t, e) =>
      match walk_children step mod rest with
      | none => none
      | some (ts, es) => some (t ++ ts, (Event.onSubmod mod s :: e) ++ es)

/-- `walk_submodules` from the source: resolve the root (a failure
propagates as `none`), fire `on_mod`, then handle each child of
`list_submodules` in order, and finally append exactly one node to the
supplied `module_tree`.  The returned events record the callback
invocations in order.  `fuel` bounds the recursion depth; exhaustion
yields `none`. -/
def walk_submodules (env : Env) : Nat → String → List ModTree →
    Option (List ModTree × List Event)
  | 0, _, _ => none
  | fuel+1, mod_fname, module_tree =>
    match env mod_fname with
    | none => none
    | some mod =>
      match walk_children (fun n => walk_submodules env fuel n [])
          mod (list_submodules_core env mod_fname mod) with
      | none => none
      | some (sub_walkdata, evs) =>
        some (module_tree ++ [ModTree.node mod sub_walkdata], Event.onMod mod :: evs)

/-- Pythonic calling convention for `walk_submodules` when the caller
omits `module_tree`: the default value `[]` is evaluated once at
function definition time, so successive such calls mutate one shared
list.  This threads that shared list through a sequence of calls and
returns its final contents. -/
def walk_default_calls (env : Env) (fuel : Nat) :
    List String → List ModTree → Option (List ModTree)
  | [], acc => some acc
  | f :: rest, acc =>
    match walk_submodules env fuel f acc with
    | none => none
    | some (acc2, _) => walk_default_calls env fuel rest acc2

/-- A tree all of whose modules were obtained from a successful
lookup in the environment (no partial subtree for a module that
failed to import). -/
inductive ResolvedTree (env : Env) : ModTree → Prop where
  | node (m : Module) (cs : List ModTree) :
      (∃ n, env n = some m) → (∀ t ∈ cs, ResolvedTree env t) →
      ResolvedTree env (ModTree.node m cs)

/-! ### Concrete test environments

Small installations used to instantiate the theorems and to exhibit
counterexamples.  `envA`: a package `p` with importable children
`p.a` (order key 0) and `p.b` (no key) and a child `p.c` that fails
to import.  `envB`: a package `q` whose child `q.a` declares order
key 10 while `q.b` declares none.  `envC`: a package `r` declaring
both an export list containing `a` and `b` and an exclusion list
containing `b`. -/

def pMod : Module := { name := "p", children := ["a", "b", "c"] }

def paMod : Module := { name := "p.a", order := some 0 }

def pbMod : Module := { name := "p.b" }

def envA : Env := fun n =>
  if n = "p" then some pMod
  else if n = "p.a" then some paMod
  else if n = "p.b" then some pbMod
  else none

/-- The node `walk_submodules` builds for the root `p` of `envA`. -/
def pTree : ModTree := .node pMod [.node paMod [], .node pbMod []]

/-- The callback order for walking `p` in `envA`. -/
def pEvents : List Event :=
  [.onMod pMod, .onSubmod pMod paMod, .onMod paMod, .onSubmod pMod pbMod, .onMod pbMod]

def qMod : Module := { name := "q", children := ["a", "b"] }

def qaMod : Module := { name := "q.a", order := some 10 }

def qbMod : Module := { name := "q.b" }

def envB : Env := fun n =>
  if n = "q" then some qMod
  else if n = "q.a" then some qaMod
  else if n = "q.b" then some qbMod
  else none

def rMod : Module :=
  { name := "r", children := ["a", "b"], all := some ["a", "b"], exclude := ["b"] }

def raMod : Module := { name := "r.a" }

def rbMod : Module := { name := "r.b" }

def envC : Env := fun n =>
  if n = "r" then some rMod
  else if n = "r.a" then some raMod
  else if n = "r.b" then some rbMod
  else none

/-- A callable named `f` with one parameter `x` and no return
annotation, used to instantiate `process_rst_args`. -/
def pyF : PyFunc := { name := "f", params := ["x"], retAnnotation := none }

/-! ### Order lemmas for the sort comparator -/

theorem charLe_total : ∀ a b, charLe a b = true ∨ charLe b a = true := by
  intro a
  induction a with
  | nil => intro b; exact Or.inl rfl
  | cons c as ih =>
    intro b
    cases b with
    | nil => exact Or.inr rfl
    | cons d bs =>
      rcases lt_trichotomy c d with h | h | h
      · left; simp [charLe, h]
      · subst h
        rcases ih bs with h2 | h2 <;> simp [charLe, lt_irrefl, h2]
      · right; simp [charLe, h]

theorem charLe_trans : ∀ a b c, charLe a b = true → charLe b c = true →
    charLe a c = true := by
  intro a
  induction a with
  | nil => intro b c _ _; rfl
  | cons x as ih =>
    intro b c hab hbc
    cases b with
    | nil => simp [charLe] at hab
    | cons y bs =>
      cases c with
      | nil => simp [charLe] at hbc
      | cons z cs =>
        simp only [charLe] at hab hbc ⊢
        rcases lt_trichotomy x y with h | h | h
        · rcases lt_trichotomy y z with g | g | g
          · simp [h.trans g]
          · subst g; simp [h]
          · rcases lt_trichotomy x z with f | f | f
            · simp [f]
            · subst f; simp [g, not_lt.mpr g.le] at hbc
            · simp [not_lt.mpr g.le, g] at hbc
        · subst h
          rcases lt_trichotomy x z with f | f | f
          · simp [f]
          · subst f
            simp only [lt_irrefl, if_false] at hab hbc ⊢
            exact ih _ _ hab hbc
          · simp [not_lt.mpr f.le, f] at hbc
        · simp [not_lt.mpr h.le, h] at hab

instance : IsTotal ((Int × String) × Module) keyLE :=
  ⟨fun a b => by
    unfold keyLE
    rcases lt_trichotomy a.1.1 b.1.1 with h | h | h
    · exact Or.inl (Or.inl h)
    · rcases charLe_total a.1.2.data b.1.2.data with h2 | h2
      · exact Or.inl (Or.inr ⟨h, h2⟩)
      · exact Or.inr (Or.inr ⟨h.symm, h2⟩)
    · exact Or.inr (Or.inl h)⟩

instance : IsTrans ((Int × String) × Module) keyLE :=
  ⟨fun a b c hab hbc => by
    unfold keyLE at *
    rcases hab with h | ⟨h1, h2⟩ <;> rcases hbc with g | ⟨g1, g2⟩
    · exact Or.inl (h.trans g)
    · exact Or.inl (g1 ▸ h)
    · exact Or.inl (h1 ▸ g)
    · exact Or.inr ⟨h1.trans g1, charLe_trans _ _ _ h2 g2⟩⟩

/-! ### Structure lemmas for `list_submodules` -/

theorem zip_key_fst (g : Module → Int) :
    ∀ (A : List Module) (ns : List String) (x : (Int × String) × Module),
      x ∈ ((A.map g).zip ns).zip A → x.1.1 = g x.2 := by
  intro A
  induction A with
  | nil => intro ns x hx; simp at hx
  | cons m ms ih =>
    intro ns x hx
    cases ns with
    | nil => simp at hx
    | cons n ns2 =>
      simp only [List.map_cons, List.zip_cons_cons] at hx
      rcases List.mem_cons.mp hx with h | h
      · subst h; rfl
      · exact ih ns2 x h

theorem length_sortDataOf (env : Env) (f : String) (mod : Module) :
    (sortDataOf env f mod).length = ((filteredNames f mod).filterMap env).length := by
  unfold sortDataOf
  rw [(List.perm_insertionSort keyLE _).length_eq]
  have h := List.length_filterMap_le env (filteredNames f mod)
  simp only [List.length_zip, List.length_map]
  omega

theorem mem_core_iff_mem_filterMap (env : Env) (f : String) (mod : Module)
    (m : Module) :
    m ∈ list_submodules_core env f mod ↔
      m ∈ (filteredNames f mod).filterMap env := by
  have hlen : ((filteredNames f mod).filterMap env).length ≤
      ((((filteredNames f mod).filterMap env).map
          (fun mm => mm.order.getD
            ((((filteredNames f mod).filterMap env).length : Nat) : Int))).zip
        (filteredNames f mod)).length := by
    have h := List.length_filterMap_le env (filteredNames f mod)
    simp only [List.length_zip, List.length_map]
    omega
  constructor
  · intro hm
    unfold list_submodules_core sortDataOf at hm
    rcases List.mem_map.mp hm with ⟨p, hp, hpe⟩
    have hp2 := (List.perm_insertionSort keyLE _).subset hp
    obtain ⟨k, mm⟩ := p
    cases hpe
    exact (List.of_mem_zip hp2).2
  · intro hm
    unfold list_submodules_core sortDataOf
    apply List.mem_map.mpr
    have hmm : m ∈ (((((filteredNames f mod).filterMap env).map
        (fun mm => mm.order.getD
          ((((filteredNames f mod).filterMap env).length : Nat) : Int))).zip
        (filteredNames f mod)).zip
        ((filteredNames f mod).filterMap env)).map Prod.snd := by
      rw [List.map_snd_zip _ _ hlen]
      exact hm
    rcases List.mem_map.mp hmm with ⟨p, hp, hpe⟩
    exact ⟨p, (List.perm_insertionSort keyLE _).mem_iff.mpr hp, hpe⟩

/-! ### C1: ordering of surviving children -/

/-- C1 (corrected).  Whenever `list_submodules` enumerates and sorts
the children of a package, the resulting key/module pairs are in
non-decreasing lexicographic order of `(order key, dotted name)`, and
every pair's order key is the module's declared `__module_order__`
when present and otherwise the number of surviving children; the
modules `list_submodules` returns are exactly the second components
of this sorted list.  (The claim's stronger reading -- that the
default makes a key-less module sort after every sibling with an
explicit key -- is false; see the counterexample.) -/
theorem c1_sorted_by_order_key (env : Env) (f : String)
    (sd : List ((Int × String) × Module))
    (h : list_submodules_sort_data env f = some sd) :
    List.Pairwise keyLE sd ∧
    (∀ x ∈ sd, x.1.1 = x.2.order.getD ((sd.length : Nat) : Int)) ∧
    list_submodules env f = some (sd.map Prod.snd) := by
  rcases hmod : env f with _ | mod
  · rw [list_submodules_sort_data, hmod] at h
    cases h
  · have hsd : sd = sortDataOf env f mod := by
      rw [list_submodules_sort_data, hmod] at h
      cases h
      rfl
    subst hsd
    refine ⟨?_, ?_, ?_⟩
    · unfold sortDataOf
      exact List.sorted_insertionSort keyLE _
    · intro x hx
      have hx2 : x ∈ ((((filteredNames f mod).filterMap env).map
          (fun mm => mm.order.getD
            ((((filteredNames f mod).filterMap env).length : Nat) : Int))).zip
          (filteredNames f mod)).zip ((filteredNames f mod).filterMap env) := by
        unfold sortDataOf at hx
        exact (List.perm_insertionSort keyLE _).subset hx
      have hkey := zip_key_fst _ _ _ _ hx2
      rw [length_sortDataOf]
      exact hkey
    · rw [list_submodules, hmod]
      rfl

/-- Witness for C1: in `envA`, package `p` has surviving children
`p.a` (declared key 0) and `p.b` (no key, default 2), sorted in that
order. -/
theorem c1_sorted_by_order_key_witness :
    list_submodules_sort_data envA "p" =
      some [((0, "p.a"), paMod), ((2, "p.b"), pbMod)] ∧
    (List.Pairwise keyLE [((0, "p.a"), paMod), ((2, "p.b"), pbMod)] ∧
      (∀ x ∈ [((0, "p.a"), paMod), ((2, "p.b"), pbMod)],
        x.1.1 = x.2.order.getD ((2 : Nat) : Int)) ∧
      list_submodules envA "p" =
        some ([((0, "p.a"), paMod), ((2, "p.b"), pbMod)].map Prod.snd)) :=
  ⟨by decide, c1_sorted_by_order_key envA "p" _ (by decide)⟩

/-- Counterexample to C1 as stated: in `envB` the child `q.b` declares
no order key while its sibling `q.a` declares key 10; with two
survivors the default key is 2, so the key-less `q.b` is returned
before the explicitly ordered `q.a` -- it does not sort after every
sibling with an explicit key. -/
theorem c1_order_default_counterexample :
    list_submodules envB "q" = some [qbMod, qaMod] ∧
    qbMod.order = none ∧ qaMod.order = some 10 := by
  refine ⟨by decide, rfl, rfl⟩

/-! ### C3: export-list filtering -/

theorem mem_filteredNames_of_all (f : String) (mod : Module) (L : List String)
    (hall : mod.all = some L) (x : String) :
    x ∈ filteredNames f mod ↔
      x ∈ mod.children.map (fun c => f ++ "." ++ c) ∧
      x ∈ L.map (fun c => f ++ "." ++ c) ∧
      x ∉ mod.exclude.map (fun c => f ++ "." ++ c) ∧
      noUnderscore x = true := by
  unfold filteredNames
  rw [hall]
  simp [List.mem_filter, List.contains]
  tauto

/-- C3 (corrected).  For a package that declares an export list `L`,
a dotted name is among the children enumerated by `list_submodules`
(and hence visited by the walker) exactly when it is one of the
package's enumerable sub-namespaces, is on `L`, is importable, does
not have an underscore-prefixed last segment, AND is not on the
package's declared exclusion list -- the exclusion-list filter, which
the claim omits, also applies.  The environment is assumed well-named
(`importlib` sets `__name__` to the imported dotted name). -/
theorem c3_export_list_filter (env : Env) (f : String) (mod : Module)
    (L : List String)
    (hmod : env f = some mod) (hall : mod.all = some L)
    (hwn : ∀ n m, env n = some m → m.name = n) (x : String) :
    (∃ ms, list_submodules env f = some ms ∧ ∃ m ∈ ms, m.name = x) ↔
      (x ∈ mod.children.map (fun c => f ++ "." ++ c) ∧
       x ∈ L.map (fun c => f ++ "." ++ c) ∧
       x ∉ mod.exclude.map (fun c => f ++ "." ++ c) ∧
       noUnderscore x = true ∧
       (env x).isSome) := by
  constructor
  · rintro ⟨ms, hms, m, hm, hname⟩
    rw [list_submodules, hmod] at hms
    cases hms
    have h2 := (mem_core_iff_mem_filterMap env f mod m).mp hm
    rcases List.mem_filterMap.mp h2 with ⟨n, hn, hne⟩
    have hxn : n = x := by rw [← hname, hwn n m hne]
    subst hxn
    subst hname
    have h3 := (mem_filteredNames_of_all f mod L hall (m.name)).mp hn
    exact ⟨h3.1, h3.2.1, h3.2.2.1, h3.2.2.2, by rw [hne]; rfl⟩
  · rintro ⟨h1, h2, h3, h4, h5⟩
    rcases henv : env x with _ | m
    · rw [henv] at h5; cases h5
    · have hname := hwn x m henv
      refine ⟨list_submodules_core env f mod, by rw [list_submodules, hmod]; rfl, m, ?_, hname⟩
      apply (mem_core_iff_mem_filterMap env f mod m).mpr
      apply List.mem_filterMap.mpr
      exact ⟨x, (mem_filteredNames_of_all f mod L hall x).mpr ⟨h1, h2, h3, h4⟩, henv⟩

/-- Witness for C3: in `envC`, `r.a` is visited (it is on the export
list, importable, not underscored, not excluded). -/
theorem c3_export_list_filter_witness :
    envC "r" = some rMod ∧ rMod.all = some ["a", "b"] ∧
    ((∃ ms, list_submodules envC "r" = some ms ∧ ∃ m ∈ ms, m.name = "r.a") ↔
      ("r.a" ∈ rMod.children.map (fun c => "r" ++ "." ++ c) ∧
       "r.a" ∈ ["a", "b"].map (fun c => "r" ++ "." ++ c) ∧
       "r.a" ∉ rMod.exclude.map (fun c => "r" ++ "." ++ c) ∧
       noUnderscore "r.a" = true ∧
       (envC "r.a").isSome)) :=
  ⟨rfl, rfl,
    c3_export_list_filter envC "r" rMod ["a", "b"] rfl rfl
      (by
        intro n m hm
        unfold envC at hm
        split_ifs at hm with h1 h2 h3 <;> cases hm <;> simp_all [rMod, raMod, rbMod]) "r.a"⟩

/-- Counterexample to C3 as stated: in `envC` the package `r` declares
the export list `["a", "b"]`; `r.b` is an importable, non-underscore
sub-namespace on that list, yet it is not visited, because it is also
on the exclusion list `__exclude_submodule__ = ["b"]`. -/
theorem c3_export_list_counterexample :
    list_submodules envC "r" = some [raMod] ∧
    raMod.name = "r.a" ∧
    (envC "r.b").isSome = true ∧
    noUnderscore "r.b" = true ∧
    "b" ∈ (rMod.all.getD []) ∧
    "b" ∈ rMod.children ∧
    ∀ m ∈ [raMod], m.name ≠ "r.b" := by
  refine ⟨by decide, rfl, rfl, by decide, by decide, by decide, by decide⟩

/-! ### CPS lemmas for the matcher

Compositional success and failure lemmas used to evaluate the matcher
symbolically on documents of a known shape. -/

theorem ksucc_seq {s : List Char} {a b : RE} {pos p1 p2 : Nat}
    {g g1 g2 : Groups} {n1 n2 : Nat}
    (ha : KSucc s a pos p1 g g1 n1) (hb : KSucc s b p1 p2 g1 g2 n2) :
    KSucc s (.seq a b) pos p2 g g2 (n1 + n2 + 1) := by
  intro F k r hF hk
  obtain ⟨F, rfl⟩ : ∃ F2, F = F2 + 1 := ⟨F - 1, by omega⟩
  exact ha F _ r (by omega) (hb F k r (by omega) hk)

theorem ksucc_lit {s cs rest : List Char} {pos : Nat} {g : Groups}
    (h : s.drop pos = cs ++ rest) (hpos : pos ≤ s.length) :
    KSucc s (.lit cs) pos (pos + cs.length) g g 1 := by
  intro F k r hF hk
  obtain ⟨F, rfl⟩ : ∃ F2, F = F2 + 1 := ⟨F - 1, by omega⟩
  have hlen : (s.drop pos).length = s.length - pos := List.length_drop pos s
  rw [h] at hlen
  simp only [List.length_append] at hlen
  have hcond : pos + cs.length ≤ s.length ∧ (s.drop pos).take cs.length = cs := by
    refine ⟨by omega, ?_⟩
    rw [h]
    exact List.take_left cs rest
  have heq : M s (F+1) (.lit cs) pos g k =
      if pos + cs.length ≤ s.length ∧ (s.drop pos).take cs.length = cs then
        k (pos + cs.length) g
      else none := rfl
  rw [heq, if_pos hcond]
  exact hk

theorem ksucc_pred {s : List Char} {p : Char → Bool} {pos : Nat} {c : Char}
    {g : Groups} (hc : getc s pos = some c) (hp : p c = true) :
    KSucc s (.pred p) pos (pos + 1) g g 1 := by
  intro F k r hF hk
  obtain ⟨F, rfl⟩ : ∃ F2, F = F2 + 1 := ⟨F - 1, by omega⟩
  have heq : M s (F+1) (.pred p) pos g k =
      (match getc s pos with
        | some c => if p c then k (pos+1) g else none
        | none => none) := rfl
  rw [heq, hc]
  simp only [hp, if_true]
  exact hk

theorem ksucc_bol {s : List Char} {pos : Nat} {g : Groups}
    (h : pos = 0 ∨ getc s (pos - 1) = some '\n') :
    KSucc s .bol pos pos g g 1 := by
  intro F k r hF hk
  obtain ⟨F, rfl⟩ : ∃ F2, F = F2 + 1 := ⟨F - 1, by omega⟩
  have heq : M s (F+1) .bol pos g k =
      if pos = 0 ∨ getc s (pos - 1) = some '\n' then k pos g else none := rfl
  rw [heq, if_pos h]
  exact hk

theorem ksucc_eol {s : List Char} {pos : Nat} {g : Groups}
    (h : pos = s.length ∨ getc s pos = some '\n') :
    KSucc s .eol pos pos g g 1 := by
  intro F k r hF hk
  obtain ⟨F, rfl⟩ : ∃ F2, F = F2 + 1 := ⟨F - 1, by omega⟩
  have heq : M s (F+1) .eol pos g k =
      if pos = s.length ∨ getc s pos = some '\n' then k pos g else none := rfl
  rw [heq, if_pos h]
  exact hk

theorem ksucc_group {s : List Char} {a : RE} {m pos p2 : Nat}
    {g g2 : Groups} {n : Nat} (ha : KSucc s a pos p2 g g2 n) :
    KSucc s (.group m a) pos p2 g (setg g2 m (pos, p2)) (n + 1) := by
  intro F k r hF hk
  obtain ⟨F, rfl⟩ : ∃ F2, F = F2 + 1 := ⟨F - 1, by omega⟩
  exact ha F _ r (by omega) hk

theorem ksucc_backref_empty {s : List Char} {m pos x : Nat} {g : Groups}
    (hcap : g.getD m none = some (x, x)) (hpos : pos ≤ s.length) :
    KSucc s (.backref m) pos pos g g 1 := by
  intro F k r hF hk
  obtain ⟨F, rfl⟩ : ∃ F2, F = F2 + 1 := ⟨F - 1, by omega⟩
  have heq : M s (F+1) (.backref m) pos g k =
      (match g.getD m none with
        | some (a, b) =>
          if pos + (b - a) ≤ s.length ∧
              (s.drop pos).take (b - a) = (s.drop a).take (b - a) then
            k (pos + (b - a)) g
          else none
        | none => none) := rfl
  rw [heq, hcap]
  simp only [Nat.sub_self, List.take_zero, Nat.add_zero, and_true]
  rw [if_pos hpos]
  exact hk

theorem ksucc_nla {s : List Char} {a : RE} {pos : Nat} {g : Groups}
    (hf : FailAll s a pos g) : KSucc s (.nla a) pos pos g g 1 := by
  intro F k r hF hk
  obtain ⟨F, rfl⟩ : ∃ F2, F = F2 + 1 := ⟨F - 1, by omega⟩
  have heq : M s (F+1) (.nla a) pos g k =
      (match M s F a pos g (fun p2 g2 => some (p2, g2)) with
        | some _ => none
        | none => k pos g) := rfl
  rw [heq, hf F _]
  exact hk

theorem ksucc_alt_left {s : List Char} {a b : RE} {pos p2 : Nat}
    {g g2 : Groups} {n : Nat} (ha : KSucc s a pos p2 g g2 n) :
    KSucc s (.alt a b) pos p2 g g2 (n + 1) := by
  intro F k r hF hk
  obtain ⟨F, rfl⟩ : ∃ F2, F = F2 + 1 := ⟨F - 1, by omega⟩
  have heq : M s (F+1) (.alt a b) pos g k =
      (match M s F a pos g k with
        | some r2 => some r2
        | none => M s F b pos g k) := rfl
  rw [heq, ha F k r (by omega) hk]

theorem kfail_lit {s cs : List Char} {pos : Nat} {g : Groups}
    (h : ¬ cs <+: s.drop pos) : FailAll s (.lit cs) pos g := by
  intro F k
  cases F with
  | zero => rfl
  | succ F =>
    have heq : M s (F+1) (.lit cs) pos g k =
        if pos + cs.length ≤ s.length ∧ (s.drop pos).take cs.length = cs then
          k (pos + cs.length) g
        else none := rfl
    rw [heq, if_neg]
    rintro ⟨-, h2⟩
    exact h (h2 ▸ List.take_prefix cs.length (s.drop pos))

theorem kfail_pred {s : List Char} {p : Char → Bool} {pos : Nat} {g : Groups}
    (h : ∀ c, getc s pos = some c → p c = false) :
    FailAll s (.pred p) pos g := by
  intro F k
  cases F with
  | zero => rfl
  | succ F =>
    have heq : M s (F+1) (.pred p) pos g k =
        (match getc s pos with
          | some c => if p c then k (pos+1) g else none
          | none => none) := rfl
    rw [heq]
    cases hc : getc s pos with
    | none => rfl
    | some c => simp [h c hc]

theorem kfail_seq_left {s : List Char} {a b : RE} {pos : Nat} {g : Groups}
    (hf : FailAll s a pos g) : FailAll s (.seq a b) pos g := by
  intro F k
  cases F with
  | zero => rfl
  | succ F => exact hf F _

theorem kfail_group {s : List Char} {a : RE} {m pos : Nat} {g : Groups}
    (hf : FailAll s a pos g) : FailAll s (.group m a) pos g := by
  intro F k
  cases F with
  | zero => rfl
  | succ F => exact hf F _

theorem kfail_alt {s : List Char} {a b : RE} {pos : Nat} {g : Groups}
    (ha : FailAll s a pos g) (hb : FailAll s b pos g) :
    FailAll s (.alt a b) pos g := by
  intro F k
  cases F with
  | zero => rfl
  | succ F =>
    have heq : M s (F+1) (.alt a b) pos g k =
        (match M s F a pos g k with
          | some r2 => some r2
          | none => M s F b pos g k) := rfl
    rw [heq, ha F k]
    exact hb F k

theorem kfail_bol {s : List Char} {pos : Nat} {g : Groups}
    (h : ¬ (pos = 0 ∨ getc s (pos - 1) = some '\n')) :
    FailAll s .bol pos g := by
  intro F k
  cases F with
  | zero => rfl
  | succ F =>
    have heq : M s (F+1) .bol pos g k =
        if pos = 0 ∨ getc s (pos - 1) = some '\n' then k pos g else none := rfl
    rw [heq, if_neg h]

theorem detn_lit {s cs rest : List Char} {pos : Nat} {g : Groups}
    (h : s.drop pos = cs ++ rest) (hpos : pos ≤ s.length) :
    DetN s (.lit cs) pos (pos + cs.length) g g := by
  intro F k
  cases F with
  | zero => exact Or.inr rfl
  | succ F =>
    left
    have hlen : (s.drop pos).length = s.length - pos := List.length_drop pos s
    rw [h] at hlen
    simp only [List.length_append] at hlen
    have hcond : pos + cs.length ≤ s.length ∧ (s.drop pos).take cs.length = cs := by
      refine ⟨by omega, ?_⟩
      rw [h]
      exact List.take_left cs rest
    have heq : M s (F+1) (.lit cs) pos g k =
        if pos + cs.length ≤ s.length ∧ (s.drop pos).take cs.length = cs then
          k (pos + cs.length) g
        else none := rfl
    rw [heq, if_pos hcond]

theorem detn_backref_empty {s : List Char} {m pos x : Nat} {g : Groups}
    (hcap : g.getD m none = some (x, x)) (hpos : pos ≤ s.length) :
    DetN s (.backref m) pos pos g g := by
  intro F k
  cases F with
  | zero => exact Or.inr rfl
  | succ F =>
    left
    have heq : M s (F+1) (.backref m) pos g k =
        (match g.getD m none with
          | some (a, b) =>
            if pos + (b - a) ≤ s.length ∧
                (s.drop pos).take (b - a) = (s.drop a).take (b - a) then
              k (pos + (b - a)) g
            else none
          | none => none) := rfl
    rw [heq, hcap]
    simp only [Nat.sub_self, List.take_zero, Nat.add_zero, and_true]
    rw [if_pos hpos]

theorem detn_bol {s : List Char} {pos : Nat} {g : Groups}
    (h : pos = 0 ∨ getc s (pos - 1) = some '\n') :
    DetN s .bol pos pos g g := by
  intro F k
  cases F with
  | zero => exact Or.inr rfl
  | succ F =>
    left
    have heq : M s (F+1) .bol pos g k =
        if pos = 0 ∨ getc s (pos - 1) = some '\n' then k pos g else none := rfl
    rw [heq, if_pos h]

theorem detn_seq {s : List Char} {a b : RE} {pos p1 p2 : Nat}
    {g g1 g2 : Groups} (ha : DetN s a pos p1 g g1) (hb : DetN s b p1 p2 g1 g2) :
    DetN s (.seq a b) pos p2 g g2 := by
  intro F k
  cases F with
  | zero => exact Or.inr rfl
  | succ F =>
    have heq : M s (F+1) (.seq a b) pos g k =
        M s F a pos g (fun q gq => M s F b q gq k) := rfl
    rw [heq]
    rcases ha F (fun q gq => M s F b q gq k) with h1 | h1 <;> rw [h1]
    · exact hb F k
    · exact Or.inr rfl

theorem detn_group {s : List Char} {a : RE} {m pos p2 : Nat} {g g2 : Groups}
    (ha : DetN s a pos p2 g g2) :
    DetN s (.group m a) pos p2 g (setg g2 m (pos, p2)) := by
  intro F k
  cases F with
  | zero => exact Or.inr rfl
  | succ F =>
    have heq : M s (F+1) (.group m a) pos g k =
        M s F a pos g (fun q gq => k q (setg gq m (pos, q))) := rfl
    rw [heq]
    rcases ha F (fun q gq => k q (setg gq m (pos, q))) with h1 | h1 <;> rw [h1]
    · exact Or.inl rfl
    · exact Or.inr rfl

theorem detn_star_zero {s : List Char} {a : RE} {pos : Nat} {g : Groups}
    (hb : FailAll s a pos g) : DetN s (.star a) pos pos g g := by
  intro F k
  cases F with
  | zero => exact Or.inr rfl
  | succ F =>
    have heq : M s (F+1) (.star a) pos g k =
        (match M s F a pos g
            (fun p2 g2 => if p2 ≤ pos then none else M s F (.star a) p2 g2 k) with
          | some r2 => some r2
          | none => k pos g) := rfl
    rw [heq, hb F _]
    exact Or.inl rfl

theorem kfail_seq_detn {s : List Char} {a b : RE} {pos p1 : Nat}
    {g g1 : Groups} (ha : DetN s a pos p1 g g1) (hb : FailAll s b p1 g1) :
    FailAll s (.seq a b) pos g := by
  intro F k
  cases F with
  | zero => rfl
  | succ F =>
    have heq : M s (F+1) (.seq a b) pos g k =
        M s F a pos g (fun q gq => M s F b q gq k) := rfl
    rw [heq]
    rcases ha F (fun q gq => M s F b q gq k) with h1 | h1 <;> rw [h1]
    exact hb F k

theorem ksucc_star_zero {s : List Char} {a : RE} {pos : Nat} {g : Groups}
    (hb : FailAll s a pos g) : KSucc s (.star a) pos pos g g 1 := by
  intro F k r hF hk
  obtain ⟨F, rfl⟩ : ∃ F2, F = F2 + 1 := ⟨F - 1, by omega⟩
  have heq : M s (F+1) (.star a) pos g k =
      (match M s F a pos g
          (fun p2 g2 => if p2 ≤ pos then none else M s F (.star a) p2 g2 k) with
        | some r2 => some r2
        | none => k pos g) := rfl
  rw [heq, hb F _]
  exact hk

theorem ksucc_star_pred {s : List Char} {p : Char → Bool} :
    ∀ (t : List Char) {rest : List Char} (pos : Nat) (g : Groups),
      s.drop pos = t ++ rest → (∀ c ∈ t, p c = true) →
      (∀ c, rest.head? = some c → p c = false) →
      KSucc s (.star (.pred p)) pos (pos + t.length) g g (t.length + 1) := by
  intro t
  induction t with
  | nil =>
    intro rest pos g hdrop _ hrest
    intro F k r hF hk
    obtain ⟨F, rfl⟩ : ∃ F2, F = F2 + 1 := ⟨F - 1, by omega⟩
    have hbody : ∀ k2 : Nat → Groups → Option (Nat × Groups),
        M s F (.pred p) pos g k2 = none := by
      intro k2
      apply kfail_pred
      intro c hc
      apply hrest
      rw [← hc]
      simp [getc, hdrop]
    have heq : M s (F+1) (.star (.pred p)) pos g k =
        (match M s F (.pred p) pos g
            (fun p2 g2 =>
              if p2 ≤ pos then none else M s F (.star (.pred p)) p2 g2 k) with
          | some r2 => some r2
          | none => k pos g) := rfl
    rw [heq, hbody]
    exact hk
  | cons c t2 ih =>
    intro rest pos g hdrop ht hrest
    intro F k r hF hk
    obtain ⟨F, rfl⟩ : ∃ F2, F = F2 + 1 := ⟨F - 1, by omega⟩
    have hgc : getc s pos = some c := by simp [getc, hdrop]
    have hdrop2 : s.drop (pos + 1) = t2 ++ rest := by
      rw [← List.drop_drop, hdrop]
      rfl
    have harith : pos + 1 + t2.length = pos + (c :: t2).length := by
      simp
      omega
    have hrec := ih (pos + 1) g hdrop2
      (fun x hx => ht x (List.mem_cons_of_mem c hx)) hrest F k r (by
        simp at hF
        omega)
      (by rw [harith]; exact hk)
    have heq : M s (F+1) (.star (.pred p)) pos g k =
        (match M s F (.pred p) pos g
            (fun p2 g2 =>
              if p2 ≤ pos then none else M s F (.star (.pred p)) p2 g2 k) with
          | some r2 => some r2
          | none => k pos g) := rfl
    rw [heq]
    have hbody : M s F (.pred p) pos g
        (fun p2 g2 =>
          if p2 ≤ pos then none else M s F (.star (.pred p)) p2 g2 k) = some r := by
      apply ksucc_pred hgc (ht c (List.mem_cons_self c t2)) F _ r (by
        simp at hF
        omega)
      show (if pos + 1 ≤ pos then (none : Option (Nat × Groups))
        else M s F (.star (.pred p)) (pos + 1) g k) = some r
      rw [if_neg (by omega)]
      exact hrec
    rw [hbody]

theorem ksucc_star_once {s : List Char} {a : RE} {pos p1 : Nat}
    {g g1 : Groups} {n : Nat} (ha : KSucc s a pos p1 g g1 n) (hgt : pos < p1)
    (hfail : FailAll s a p1 g1) : KSucc s (.star a) pos p1 g g1 (n + 2) := by
  intro F k r hF hk
  obtain ⟨F, rfl⟩ : ∃ F2, F = F2 + 1 := ⟨F - 1, by omega⟩
  have heq : M s (F+1) (.star a) pos g k =
      (match M s F a pos g
          (fun p2 g2 => if p2 ≤ pos then none else M s F (.star a) p2 g2 k) with
        | some r2 => some r2
        | none => k pos g) := rfl
  rw [heq]
  have hcont : M s F a pos g
      (fun p2 g2 => if p2 ≤ pos then none else M s F (.star a) p2 g2 k) = some r := by
    apply ha F _ r (by omega)
    show (if p1 ≤ pos then (none : Option (Nat × Groups))
      else M s F (.star a) p1 g1 k) = some r
    rw [if_neg (by omega)]
    obtain ⟨F, rfl⟩ : ∃ F2, F = F2 + 1 := ⟨F - 1, by omega⟩
    have heq2 : M s (F+1) (.star a) p1 g1 k =
        (match M s F a p1 g1
            (fun p2 g2 => if p2 ≤ p1 then none else M s F (.star a) p2 g2 k) with
          | some r2 => some r2
          | none => k p1 g1) := rfl
    rw [heq2, hfail F _]
    exact hk
  rw [hcont]

/-! ### Scanning lemmas for the Python string primitives -/

theorem occursAux_iff_infix (nd : List Char) :
    ∀ (F : Nat) (hay : List Char), hay.length ≤ F →
      (occursAux nd F hay = true ↔ nd <:+: hay) := by
  intro F
  induction F with
  | zero =>
    intro hay h
    have : hay = [] := List.eq_nil_of_length_eq_zero (by omega)
    subst this
    simp [occursAux]
  | succ F ih =>
    intro hay h
    cases hay with
    | nil => simp [occursAux]
    | cons c t =>
      have heq : occursAux nd (F+1) (c :: t) =
          (nd.isPrefixOf (c :: t) || occursAux nd F t) := rfl
      rw [heq]
      simp only [Bool.or_eq_true, List.isPrefixOf_iff_prefix]
      rw [ih t (by simp at h; omega)]
      exact List.infix_cons_iff.symm

theorem occurs_eq_false_iff (nd hay : String) :
    occurs nd hay = false ↔ ¬ (nd.data <:+: hay.data) := by
  have h := occursAux_iff_infix nd.data hay.data.length hay.data (Nat.le_refl _)
  unfold occurs
  constructor
  · intro hf hi
    rw [h.mpr hi] at hf
    cases hf
  · intro hi
    cases he : occursAux nd.data hay.data.length hay.data with
    | false => rfl
    | true => exact absurd (h.mp he) hi

theorem pyReplaceAux_no_occur {old new : List Char} :
    ∀ (F : Nat) (s : List Char), ¬ (old <:+: s) → pyReplaceAux old new F s = s := by
  intro F
  induction F with
  | zero => intro s h; rfl
  | succ F ih =>
    intro s h
    have hpre : old.isPrefixOf s = false := by
      cases hp : old.isPrefixOf s with
      | false => rfl
      | true =>
        exact absurd (List.isPrefixOf_iff_prefix.mp hp).isInfix h
    cases s with
    | nil =>
      have heq : pyReplaceAux old new (F+1) [] =
          if old.isPrefixOf [] then
            new ++ pyReplaceAux old new F (([] : List Char).drop old.length)
          else [] := rfl
      rw [heq, if_neg (by rw [hpre]; exact Bool.false_ne_true)]
    | cons c t =>
      have heq : pyReplaceAux old new (F+1) (c :: t) =
          if old.isPrefixOf (c :: t) then
            new ++ pyReplaceAux old new F ((c :: t).drop old.length)
          else c :: pyReplaceAux old new F t := rfl
      rw [heq, if_neg (by rw [hpre]; exact Bool.false_ne_true)]
      rw [ih t (fun h2 => h (List.infix_cons_iff.mpr (Or.inr h2)))]

theorem pyReplace_no_occur {old new s : List Char} (h0 : old ≠ [])
    (h : ¬ (old <:+: s)) : pyReplace s old new = s := by
  unfold pyReplace
  rw [if_neg (by simpa using h0)]
  exact pyReplaceAux_no_occur s.length s h

theorem pyReplaceAux_skip {old new : List Char} :
    ∀ (a : List Char) {rest : List Char} (F : Nat), a.length ≤ F →
      (∀ t, t <:+ a → t ≠ [] → ¬ (old <+: (t ++ rest))) →
      pyReplaceAux old new F (a ++ rest) =
        a ++ pyReplaceAux old new (F - a.length) rest := by
  intro a
  induction a with
  | nil => intro rest F hF h; simp
  | cons c a2 ih =>
    intro rest F hF h
    obtain ⟨F, rfl⟩ : ∃ F2, F = F2 + 1 := ⟨F - 1, by simp at hF; omega⟩
    have hpre : old.isPrefixOf ((c :: a2) ++ rest) = false := by
      cases hp : old.isPrefixOf ((c :: a2) ++ rest) with
      | false => rfl
      | true =>
        exact absurd (List.isPrefixOf_iff_prefix.mp hp)
          (h (c :: a2) (List.suffix_refl _) (List.cons_ne_nil c a2))
    have heq : pyReplaceAux old new (F+1) ((c :: a2) ++ rest) =
        if old.isPrefixOf ((c :: a2) ++ rest) then
          new ++ pyReplaceAux old new F (((c :: a2) ++ rest).drop old.length)
        else c :: pyReplaceAux old new F (a2 ++ rest) := rfl
    rw [heq, if_neg (by rw [hpre]; exact Bool.false_ne_true)]
    rw [ih F (by simp at hF; omega)
      (fun t ht htn => h t (ht.trans (List.suffix_cons c a2)) htn)]
    have harith : F + 1 - (c :: a2).length = F - a2.length := by
      simp only [List.length_cons]
      omega
    rw [harith]
    rfl

theorem pyReplaceAux_hit {old new : List Char} (_h0 : old ≠ [])
    (rest : List Char) (F : Nat) (hF : 1 ≤ F) :
    pyReplaceAux old new F (old ++ rest) =
      new ++ pyReplaceAux old new (F - 1) rest := by
  obtain ⟨F, rfl⟩ : ∃ F2, F = F2 + 1 := ⟨F - 1, by omega⟩
  have hpre : old.isPrefixOf (old ++ rest) = true :=
    List.isPrefixOf_iff_prefix.mpr (List.prefix_append old rest)
  have heq : pyReplaceAux old new (F+1) (old ++ rest) =
      if old.isPrefixOf (old ++ rest) then
        new ++ pyReplaceAux old new F ((old ++ rest).drop old.length)
      else
        match old ++ rest with
        | [] => []
        | c :: t => c :: pyReplaceAux old new F t := rfl
  rw [heq, if_pos hpre, List.drop_left]
  simp

theorem suffix_append_cases {α : Type} {t l1 l2 : List α} (h : t <:+ l1 ++ l2) :
    t <:+ l2 ∨ ∃ t1, t1 <:+ l1 ∧ t = t1 ++ l2 := by
  obtain ⟨u, hu⟩ := h
  rcases List.append_eq_append_iff.mp hu with ⟨a2, h1, h2⟩ | ⟨c2, h1, h2⟩
  · exact Or.inr ⟨a2, ⟨u, h1.symm⟩, h2⟩
  · exact Or.inl ⟨c2, h2.symm⟩

theorem not_prefix_of_space_head {old t rest : List Char} {hc : Char}
    {y2 : List Char} (hold : old = hc :: y2) (hhc : isPySpace hc = false)
    (ht : t ≠ []) (hsp : ∀ c, t.head? = some c → isPySpace c = true) :
    ¬ (old <+: t ++ rest) := by
  intro hpre
  cases t with
  | nil => exact ht rfl
  | cons c t2 =>
    rw [hold] at hpre
    obtain ⟨w, hw⟩ := hpre
    have hw2 : hc :: (y2 ++ w) = c :: (t2 ++ rest) := by simpa using hw
    have h1 : hc = c := by injection hw2
    rw [h1, hsp c rfl] at hhc
    cases hhc

theorem not_prefix_crossing {old pre t2 rest2 : List Char}
    (hNL : '\n' ∉ old) (hnocc : ¬ (old <:+: pre)) (ht2 : t2 <:+ pre) :
    ¬ (old <+: t2 ++ '\n' :: rest2) := by
  intro hpre
  by_cases hlen : old.length ≤ t2.length
  · apply hnocc
    have hpre2 : old <+: t2 := by
      have h2 : old = (t2 ++ '\n' :: rest2).take old.length :=
        List.prefix_iff_eq_take.mp hpre
      rw [List.take_append_eq_append_take] at h2
      have hz : old.length - t2.length = 0 := by omega
      rw [hz] at h2
      simp only [List.take_zero, List.append_nil] at h2
      exact List.prefix_iff_eq_take.mpr h2
    obtain ⟨w, hw⟩ := ht2
    obtain ⟨v, hv⟩ := hpre2
    exact ⟨w, v, by rw [← hw, ← hv, List.append_assoc]⟩
  · exfalso
    apply hNL
    have h2 : old = (t2 ++ '\n' :: rest2).take old.length :=
      List.prefix_iff_eq_take.mp hpre
    rw [List.take_append_eq_append_take] at h2
    obtain ⟨d, hd⟩ : ∃ d, old.length - t2.length = d + 1 :=
      ⟨old.length - t2.length - 1, by omega⟩
    rw [hd, List.take_succ_cons] at h2
    rw [h2]
    exact List.mem_append.mpr (Or.inr (List.mem_cons_self _ _))

theorem drop_shift {s u v : List Char} {a : Nat} (h : s.drop a = u ++ v) :
    s.drop (a + u.length) = v := by
  rw [← List.drop_drop, h, List.drop_left]

theorem sblock_drop4 (e y : List Char) : (sblock e y).drop 4 = e ++ '\n' :: y :=
  @drop_shift (sblock e y) ">>> ".data (e ++ '\n' :: y) 0 rfl

theorem sblock_drop_pe (e y : List Char) :
    (sblock e y).drop (4 + e.length) = '\n' :: y :=
  @drop_shift (sblock e y) e ('\n' :: y) 4 (sblock_drop4 e y)

theorem sblock_drop_pe1 (e y : List Char) :
    (sblock e y).drop (4 + e.length + 1) = y :=
  @drop_shift (sblock e y) ['\n'] y (4 + e.length) (sblock_drop_pe e y)

theorem sblock_length (e y : List Char) :
    (sblock e y).length = 5 + e.length + y.length := by
  show (">>> ".data ++ (e ++ '\n' :: y)).length = _
  rw [List.length_append, List.length_append, List.length_cons]
  show 4 + (e.length + (y.length + 1)) = 5 + e.length + y.length
  omega

theorem dropWhile_strip_decomp (y : List Char) :
    y.dropWhile isPySpace =
      pyStrip y ++ ((y.dropWhile isPySpace).reverse.takeWhile isPySpace).reverse := by
  conv_lhs =>
    rw [← List.reverse_reverse (y.dropWhile isPySpace),
      ← List.takeWhile_append_dropWhile isPySpace (y.dropWhile isPySpace).reverse,
      List.reverse_append]
  rfl

theorem strip_decomp (y : List Char) :
    y = y.takeWhile isPySpace ++
      (pyStrip y ++ ((y.dropWhile isPySpace).reverse.takeWhile isPySpace).reverse) := by
  conv_lhs => rw [← List.takeWhile_append_dropWhile isPySpace y]
  exact congrArg (fun z => y.takeWhile isPySpace ++ z) (dropWhile_strip_decomp y)

theorem pyStrip_head {y : List Char} {hc : Char} {t2 : List Char}
    (hy : pyStrip y = hc :: t2) : isPySpace hc = false := by
  have hz : (y.dropWhile isPySpace).head? = some hc := by
    rw [dropWhile_strip_decomp y, hy]
    rfl
  have h2 := List.head?_dropWhile_not isPySpace y
  rw [hz] at h2
  exact h2

theorem mem_pyStrip {y : List Char} {c : Char} (hc : c ∈ pyStrip y) : c ∈ y := by
  rw [strip_decomp y]
  exact List.mem_append.mpr (Or.inr (List.mem_append.mpr (Or.inl hc)))

theorem mem_strip_w2 {y : List Char} {c : Char}
    (hc : c ∈ ((y.dropWhile isPySpace).reverse.takeWhile isPySpace).reverse) :
    isPySpace c = true := by
  rw [List.mem_reverse] at hc
  exact List.mem_takeWhile_imp hc

theorem no_infix_of_space_all {old w : List Char} {hc : Char} {t2 : List Char}
    (hold : old = hc :: t2) (hhc : isPySpace hc = false)
    (hw : ∀ c ∈ w, isPySpace c = true) : ¬ (old <:+: w) := by
  rintro ⟨u, v, huv⟩
  have hmem : hc ∈ w := by
    rw [← huv, hold]
    exact List.mem_append.mpr (Or.inl (List.mem_append.mpr
      (Or.inr (List.mem_cons_self _ _))))
  rw [hw hc hmem] at hhc
  cases hhc

theorem pdPat_single_match {e y : List Char} {c0 : Char} {e2 : List Char}
    (he : e = c0 :: e2) (hc0 : isPySpace c0 = false)
    (heNL : '\n' ∉ e) (hyNL : '\n' ∉ y)
    (hyD : ¬ ("...".data <+: y)) (hyG : ¬ (">>>".data <+: y)) :
    matchAt pdPat (sblock e y) 0 =
      some ⟨0, (sblock e y).length,
        [none, some (0, 4 + e.length), some (0, 0), none,
         some (4 + e.length, (sblock e y).length), none, none, none]⟩ := by
  have hslen : (sblock e y).length = 5 + e.length + y.length := sblock_length e y
  have helen : e.length = e2.length + 1 := by rw [he]; rfl
  obtain ⟨t1, r1, he2split, ht1mem, hr1head⟩ :
      ∃ t1 r1, e2 = t1 ++ r1 ∧ (∀ c ∈ t1, (!(isPySpace c)) = true) ∧
        (∀ c, r1.head? = some c → (!(isPySpace c)) = false) := by
    refine ⟨e2.takeWhile (fun c => !(isPySpace c)),
      e2.dropWhile (fun c => !(isPySpace c)),
      (List.takeWhile_append_dropWhile _ _).symm, ?_, ?_⟩
    · intro c hc
      have h2 := List.mem_takeWhile_imp hc
      exact h2
    · intro c hc
      have h2 := List.head?_dropWhile_not (fun c => !(isPySpace c)) e2
      rw [hc] at h2
      exact h2
  have he2len : e2.length = t1.length + r1.length := by
    rw [he2split, List.length_append]
  have hd0 : (sblock e y).drop 0 = ">>> ".data ++ (e ++ '\n' :: y) := rfl
  have hd4 : (sblock e y).drop 4 = e ++ '\n' :: y := sblock_drop4 e y
  have hd5 : (sblock e y).drop 5 = e2 ++ '\n' :: y := by
    have h2 : (sblock e y).drop 4 = [c0] ++ (e2 ++ '\n' :: y) := by
      rw [hd4, he]; rfl
    exact @drop_shift (sblock e y) [c0] (e2 ++ '\n' :: y) 4 h2
  have hd5t : (sblock e y).drop 5 = t1 ++ (r1 ++ '\n' :: y) := by
    rw [hd5, he2split, List.append_assoc]
  have hdA : (sblock e y).drop (5 + t1.length) = r1 ++ '\n' :: y :=
    @drop_shift (sblock e y) t1 (r1 ++ '\n' :: y) 5 hd5t
  have hidx : 5 + t1.length + r1.length = 4 + e.length := by omega
  have hdPe : (sblock e y).drop (4 + e.length) = '\n' :: y := sblock_drop_pe e y
  have hdPeLit : (sblock e y).drop (4 + e.length) = "\n".data ++ y := by
    rw [hdPe]; rfl
  have hdPe1 : (sblock e y).drop (4 + e.length + 1) = y := sblock_drop_pe1 e y
  have hdEnd : (sblock e y).drop (sblock e y).length = [] := List.drop_length _
  have hgc : getc (sblock e y) 4 = some c0 := by
    show ((sblock e y).drop 4).head? = some c0
    rw [hd4, he]
    rfl
  have hrest1 : ∀ c, (r1 ++ '\n' :: y).head? = some c → (!(isPySpace c)) = false := by
    intro c hc
    cases hr : r1 with
    | nil =>
      rw [hr] at hc
      have h3 : some '\n' = some c := hc
      obtain rfl := Option.some.inj h3
      rfl
    | cons d r2 =>
      apply hr1head c
      rw [hr] at hc ⊢
      exact hc
  have hr1dot : ∀ c ∈ r1, (c != '\n') = true := by
    intro c hc
    have hcy : c ∈ e := by
      rw [he]
      refine List.mem_cons_of_mem c0 ?_
      rw [he2split]
      exact List.mem_append.mpr (Or.inr hc)
    have hne : c ≠ '\n' := fun h => heNL (h ▸ hcy)
    simp only [bne_iff_ne]
    exact hne
  have hrestdot : ∀ c, ('\n' :: y).head? = some c → (c != '\n') = false := by
    intro c hc
    have h3 : some '\n' = some c := hc
    obtain rfl := Option.some.inj h3
    rfl
  have hymem : ∀ c ∈ y, (c != '\n') = true := by
    intro c hc
    have hne : c ≠ '\n' := fun h => hyNL (h ▸ hc)
    simp only [bne_iff_ne]
    exact hne
  -- atomic steps of the code line, generic in the capture table
  have h_bol : ∀ g : Groups, KSucc (sblock e y) .bol 0 0 g g 1 :=
    fun _ => ksucc_bol (Or.inl rfl)
  have hd0z : (sblock e y).drop 0 = [] ++ (">>> ".data ++ (e ++ '\n' :: y)) := rfl
  have h_blank : ∀ g : Groups, KSucc (sblock e y) (.star chBlank) 0 0 g g 1 := by
    intro g
    refine ksucc_star_pred [] 0 g hd0z ?_ ?_
    · intro c hc
      exact absurd hc (List.not_mem_nil c)
    · intro c hc
      have h3 : some '>' = some c := hc
      obtain rfl := Option.some.inj h3
      rfl
  have h_lit : ∀ g : Groups, KSucc (sblock e y) (.lit ">>> ".data) 0 4 g g 1 :=
    fun _ => ksucc_lit hd0 (Nat.zero_le _)
  have h_c0 : ∀ g : Groups, KSucc (sblock e y) chNS 4 5 g g 1 := by
    intro g
    refine ksucc_pred hgc ?_
    show (!(isPySpace c0)) = true
    rw [hc0]
    rfl
  have h_t1 : ∀ g : Groups,
      KSucc (sblock e y) (.star chNS) 5 (5 + t1.length) g g (t1.length + 1) :=
    fun g => ksucc_star_pred t1 5 g hd5t ht1mem hrest1
  have h_dot : ∀ g : Groups,
      KSucc (sblock e y) (.star chDot) (5 + t1.length) (4 + e.length) g g
        (r1.length + 1) := by
    intro g
    have h2 : KSucc (sblock e y) (.star chDot) (5 + t1.length)
        (5 + t1.length + r1.length) g g (r1.length + 1) :=
      ksucc_star_pred r1 (5 + t1.length) g hdA hr1dot hrestdot
    rw [hidx] at h2
    exact h2
  -- the continuation-line alternative fails outright at the end of the line
  have h_contfail : ∀ g : Groups, g.getD 2 none = some (0, 0) →
      FailAll (sblock e y)
        (.seq (.lit "\n".data) (.seq (.backref 2) (.seq (.lit "...".data)
          (.seq (REplus chS) (.seq (.star chDot) .eol))))) (4 + e.length) g := by
    intro g hg
    refine kfail_seq_detn (detn_lit hdPeLit ?_) ?_
    · omega
    · refine kfail_seq_detn (detn_backref_empty hg ?_) ?_
      · show 4 + e.length + 1 ≤ (sblock e y).length
        omega
      · refine kfail_seq_left (kfail_lit ?_)
        show ¬ ("...".data <+: (sblock e y).drop (4 + e.length + 1))
        rw [hdPe1]
        exact hyD
  have h_cont : ∀ g : Groups, g.getD 2 none = some (0, 0) →
      KSucc (sblock e y)
        (.star (.seq (.lit "\n".data) (.seq (.backref 2) (.seq (.lit "...".data)
          (.seq (REplus chS) (.seq (.star chDot) .eol))))))
        (4 + e.length) (4 + e.length) g g 1 :=
    fun g hg => ksucc_star_zero (h_contfail g hg)
  -- the code group
  have hG2 : KSucc (sblock e y) (.group 2 (.star chBlank)) 0 0 g0
      [none, none, some (0, 0), none, none, none, none, none] 2 :=
    ksucc_group (h_blank g0)
  have hG1 : KSucc (sblock e y)
      (.group 1 (.seq .bol (.seq (.group 2 (.star chBlank))
        (.seq (.lit ">>> ".data) (.seq (REplus chNS) (.seq (.star chDot)
          (.star (.seq (.lit "\n".data) (.seq (.backref 2) (.seq (.lit "...".data)
            (.seq (REplus chS) (.seq (.star chDot) .eol))))))))))))
      0 (4 + e.length) g0
      [none, some (0, 4 + e.length), some (0, 0), none, none, none, none, none]
      _ :=
    ksucc_group (ksucc_seq (h_bol g0) (ksucc_seq hG2 (ksucc_seq
      (h_lit [none, none, some (0, 0), none, none, none, none, none])
      (ksucc_seq (ksucc_seq
        (h_c0 [none, none, some (0, 0), none, none, none, none, none])
        (h_t1 [none, none, some (0, 0), none, none, none, none, none]))
        (ksucc_seq
          (h_dot [none, none, some (0, 0), none, none, none, none, none])
          (h_cont [none, none, some (0, 0), none, none, none, none, none] rfl))))))
  -- the output group: exactly one iteration of the first alternative
  have hpe1Le : 4 + e.length + 1 ≤ (sblock e y).length := by omega
  have hnoG : ¬ (">>>".data <+: (sblock e y).drop (4 + e.length + 1)) := by
    rw [hdPe1]
    exact hyG
  have hdropY : (sblock e y).drop (4 + e.length + 1) = y ++ [] := by
    rw [hdPe1, List.append_nil]
  have hEnd : 4 + e.length + 1 + y.length = (sblock e y).length := by omega
  have hydot : KSucc (sblock e y) (.star chDot) (4 + e.length + 1)
      (4 + e.length + 1 + y.length)
      [none, some (0, 4 + e.length), some (0, 0), none, none, none, none, none]
      [none, some (0, 4 + e.length), some (0, 0), none, none, none, none, none]
      (y.length + 1) := by
    refine ksucc_star_pred y (4 + e.length + 1) _ hdropY hymem ?_
    intro c hc
    simp at hc
  have heol : KSucc (sblock e y) .eol (4 + e.length + 1 + y.length)
      (4 + e.length + 1 + y.length)
      [none, some (0, 4 + e.length), some (0, 0), none, none, none, none, none]
      [none, some (0, 4 + e.length), some (0, 0), none, none, none, none, none]
      1 :=
    ksucc_eol (Or.inl hEnd)
  have hB1 := ksucc_seq
    (ksucc_lit hdPeLit (show 4 + e.length ≤ (sblock e y).length by omega))
    (ksucc_seq
      (@ksucc_backref_empty (sblock e y) 2 (4 + e.length + 1) 0
        [none, some (0, 4 + e.length), some (0, 0), none, none, none, none, none]
        rfl hpe1Le)
      (ksucc_seq (ksucc_nla (kfail_lit hnoG)) (ksucc_seq hydot heol)))
  rw [hEnd] at hB1
  have hOBfail : FailAll (sblock e y)
      (.alt
        (.seq (.lit "\n".data) (.seq (.backref 2)
          (.seq (.nla (.lit ">>>".data)) (.seq (.star chDot) .eol))))
        (.seq (.lit "\n".data) (.nla (.lit "\n\n".data))))
      (sblock e y).length
      [none, some (0, 4 + e.length), some (0, 0), none, none, none, none, none] := by
    refine kfail_alt (kfail_seq_left (kfail_lit ?_))
      (kfail_seq_left (kfail_lit ?_)) <;>
      (rw [hdEnd]; intro h; exact absurd (List.prefix_nil.mp h) (by decide))
  have hOB : KSucc (sblock e y)
      (.alt
        (.seq (.lit "\n".data) (.seq (.backref 2)
          (.seq (.nla (.lit ">>>".data)) (.seq (.star chDot) .eol))))
        (.seq (.lit "\n".data) (.nla (.lit "\n\n".data))))
      (4 + e.length) (sblock e y).length
      [none, some (0, 4 + e.length), some (0, 0), none, none, none, none, none]
      [none, some (0, 4 + e.length), some (0, 0), none, none, none, none, none]
      _ :=
    ksucc_alt_left hB1
  have hStarOB : KSucc (sblock e y)
      (.star (.alt
        (.seq (.lit "\n".data) (.seq (.backref 2)
          (.seq (.nla (.lit ">>>".data)) (.seq (.star chDot) .eol))))
        (.seq (.lit "\n".data) (.nla (.lit "\n\n".data)))))
      (4 + e.length) (sblock e y).length
      [none, some (0, 4 + e.length), some (0, 0), none, none, none, none, none]
      [none, some (0, 4 + e.length), some (0, 0), none, none, none, none, none]
      _ :=
    ksucc_star_once hOB (by omega) hOBfail
  have hG4 : KSucc (sblock e y)
      (.group 4 (.star (.alt
        (.seq (.lit "\n".data) (.seq (.backref 2)
          (.seq (.nla (.lit ">>>".data)) (.seq (.star chDot) .eol))))
        (.seq (.lit "\n".data) (.nla (.lit "\n\n".data))))))
      (4 + e.length) (sblock e y).length
      [none, some (0, 4 + e.length), some (0, 0), none, none, none, none, none]
      [none, some (0, 4 + e.length), some (0, 0), none,
       some (4 + e.length, (sblock e y).length), none, none, none]
      _ :=
    ksucc_group hStarOB
  have h_pd : KSucc (sblock e y) pdPat 0 (sblock e y).length g0
      [none, some (0, 4 + e.length), some (0, 0), none,
       some (4 + e.length, (sblock e y).length), none, none, none]
      _ :=
    ksucc_seq hG1 hG4
  have hM : M (sblock e y) (mFuel (sblock e y)) pdPat 0 g0
      (fun p g => some (p, g)) =
      some ((sblock e y).length,
        [none, some (0, 4 + e.length), some (0, 0), none,
         some (4 + e.length, (sblock e y).length), none, none, none]) := by
    refine h_pd (mFuel (sblock e y)) _ _ ?_ rfl
    simp only [mFuel]
    omega
  unfold matchAt
  rw [hM]

theorem pdPat_no_match_at_end {e y : List Char} (hyNL : '\n' ∉ y) :
    matchAt pdPat (sblock e y) (sblock e y).length = none := by
  have hslen : (sblock e y).length = 5 + e.length + y.length := sblock_length e y
  have hdEnd : (sblock e y).drop (sblock e y).length = [] := List.drop_length _
  have hgcEnd : getc (sblock e y) (sblock e y).length = none := by
    show ((sblock e y).drop (sblock e y).length).head? = none
    rw [hdEnd]
    rfl
  have hfail : FailAll (sblock e y) pdPat (sblock e y).length g0 := by
    apply kfail_seq_left
    apply kfail_group
    by_cases hy0 : y = []
    · -- the document ends in the newline: `^` holds but `>>> ` cannot match
      subst hy0
      simp only [List.length_nil] at hslen
      have hsplit : sblock e [] = (">>> ".data ++ e) ++ ['\n'] := by
        show ">>> ".data ++ (e ++ ['\n']) = (">>> ".data ++ e) ++ ['\n']
        rw [List.append_assoc]
      have hidx : (sblock e []).length - 1 = (">>> ".data ++ e).length := by
        have h4 : (">>> ".data ++ e).length = 4 + e.length := by
          rw [List.length_append]; rfl
        omega
      have hdroplast : (sblock e []).drop ((sblock e []).length - 1) = ['\n'] := by
        rw [hidx]
        conv_lhs => rw [hsplit]
        exact List.drop_left _ _
      have hgetlast : getc (sblock e []) ((sblock e []).length - 1) = some '\n' := by
        show ((sblock e []).drop ((sblock e []).length - 1)).head? = some '\n'
        rw [hdroplast]
        rfl
      refine kfail_seq_detn (detn_bol (Or.inr hgetlast)) ?_
      refine kfail_seq_detn (detn_group (detn_star_zero (kfail_pred ?_))) ?_
      · intro c hc
        rw [hgcEnd] at hc
        simp at hc
      · refine kfail_seq_left (kfail_lit ?_)
        rw [hdEnd]
        intro h
        exact absurd (List.prefix_nil.mp h) (by decide)
    · -- the document ends in a character of `y`, which is not a newline,
      -- so the MULTILINE `^` fails at the end position
      obtain ⟨y3, d, hy3⟩ : ∃ y3 d, y = y3 ++ [d] :=
        ⟨y.dropLast, y.getLast hy0, (List.dropLast_append_getLast hy0).symm⟩
      have hd_ne : d ≠ '\n' := fun h =>
        hyNL (by
          rw [hy3, h]
          exact List.mem_append.mpr (Or.inr (List.mem_cons_self _ _)))
      have hsplit : sblock e y = (">>> ".data ++ (e ++ '\n' :: y3)) ++ [d] := by
        show ">>> ".data ++ (e ++ '\n' :: y) = _
        rw [hy3]
        simp [List.append_assoc]
      have hidx : (sblock e y).length - 1 = (">>> ".data ++ (e ++ '\n' :: y3)).length := by
        have h5 : (sblock e y).length = (">>> ".data ++ (e ++ '\n' :: y3)).length + 1 := by
          conv_lhs => rw [hsplit]
          simp
          omega
        omega
      have hdroplast : (sblock e y).drop ((sblock e y).length - 1) = [d] := by
        rw [hidx]
        conv_lhs => rw [hsplit]
        exact List.drop_left _ _
      have hgetlast : getc (sblock e y) ((sblock e y).length - 1) = some d := by
        show ((sblock e y).drop ((sblock e y).length - 1)).head? = some d
        rw [hdroplast]
        rfl
      refine kfail_seq_left (kfail_bol ?_)
      rintro (h0 | hnl)
      · omega
      · rw [hgetlast] at hnl
        exact hd_ne (Option.some.inj hnl)
  unfold matchAt
  rw [hfail (mFuel (sblock e y)) _]

theorem finditer_sblock {e y : List Char} {c0 : Char} {e2 : List Char}
    (he : e = c0 :: e2) (hc0 : isPySpace c0 = false)
    (heNL : '\n' ∉ e) (hyNL : '\n' ∉ y)
    (hyD : ¬ ("...".data <+: y)) (hyG : ¬ (">>>".data <+: y)) :
    finditer pdPat (sblock e y) =
      [⟨0, (sblock e y).length,
        [none, some (0, 4 + e.length), some (0, 0), none,
         some (4 + e.length, (sblock e y).length), none, none, none]⟩] := by
  have hslen : (sblock e y).length = 5 + e.length + y.length := sblock_length e y
  have hm0 := pdPat_single_match he hc0 heNL hyNL hyD hyG
  have hmend := pdPat_no_match_at_end (e := e) hyNL
  have hsearch1 : reSearchFrom pdPat (sblock e y) ((sblock e y).length + 1) 0 =
      some ⟨0, (sblock e y).length,
        [none, some (0, 4 + e.length), some (0, 0), none,
         some (4 + e.length, (sblock e y).length), none, none, none]⟩ := by
    show (match matchAt pdPat (sblock e y) 0 with
      | some m => some m
      | none =>
        if (sblock e y).length ≤ 0 then none
        else reSearchFrom pdPat (sblock e y) (sblock e y).length (0 + 1)) = _
    rw [hm0]
  have hsearch2 : reSearchFrom pdPat (sblock e y) 1 (sblock e y).length = none := by
    show (match matchAt pdPat (sblock e y) (sblock e y).length with
      | some m => some m
      | none =>
        if (sblock e y).length ≤ (sblock e y).length then none
        else reSearchFrom pdPat (sblock e y) 0 ((sblock e y).length + 1)) = none
    rw [hmend]
    show (if (sblock e y).length ≤ (sblock e y).length then none
      else reSearchFrom pdPat (sblock e y) 0 ((sblock e y).length + 1)) = none
    rw [if_pos (Nat.le_refl _)]
  have haux0 : ∀ Fu pos, pos = (sblock e y).length →
      finditerAux pdPat (sblock e y) (Fu + 1) pos = [] := by
    intro Fu pos hpos
    subst hpos
    show (if (sblock e y).length < (sblock e y).length then ([] : List REMatch)
      else
        match reSearchFrom pdPat (sblock e y)
            ((sblock e y).length + 1 - (sblock e y).length) (sblock e y).length with
        | none => []
        | some m =>
          m :: finditerAux pdPat (sblock e y) Fu
            (if m.start < m.stop then m.stop else m.start + 1)) = []
    rw [if_neg (by omega)]
    rw [show (sblock e y).length + 1 - (sblock e y).length = 1 from by omega]
    rw [hsearch2]
  have haux2 : finditerAux pdPat (sblock e y) (sblock e y).length
      (sblock e y).length = [] := by
    obtain ⟨Fu, hFu⟩ : ∃ Fu, (sblock e y).length = Fu + 1 :=
      ⟨(sblock e y).length - 1, by omega⟩
    rw [hFu]
    exact haux0 Fu (Fu + 1) hFu.symm
  show (if (sblock e y).length < 0 then ([] : List REMatch)
    else
      match reSearchFrom pdPat (sblock e y) ((sblock e y).length + 1 - 0) 0 with
      | none => []
      | some m =>
        m :: finditerAux pdPat (sblock e y) (sblock e y).length
          (if m.start < m.stop then m.stop else m.start + 1)) = _
  rw [if_neg (by omega)]
  rw [show (sblock e y).length + 1 - 0 = (sblock e y).length + 1 from rfl]
  rw [hsearch1]
  show (⟨0, (sblock e y).length,
      [none, some (0, 4 + e.length), some (0, 0), none,
       some (4 + e.length, (sblock e y).length), none, none, none]⟩ : REMatch) ::
    finditerAux pdPat (sblock e y) (sblock e y).length
      (if (0 : Nat) < (sblock e y).length then (sblock e y).length else 0 + 1) = _
  rw [if_pos (show (0 : Nat) < (sblock e y).length by omega)]
  rw [haux2]

theorem process_doctest_single_block {e y : List Char} {c0 : Char} {e2 : List Char}
    (he : e = c0 :: e2) (hc0 : isPySpace c0 = false)
    (heNL : '\n' ∉ e) (hyNL : '\n' ∉ y)
    (hyD : ¬ ("...".data <+: y)) (hyG : ¬ (">>>".data <+: y))
    (hys : pyStrip y ≠ [])
    (hyO : ¬ (pyStrip y <:+: (">>> ".data ++ e)))
    (heG : ¬ (">>> ".data <:+: e)) (heD : ¬ ("... ".data <:+: e)) :
    process_doctest (String.mk (sblock e y)) =
      String.mk ("```\x7bpython\x7d\n".data ++ (e ++ ("\n```\n".data ++
        (y.takeWhile isPySpace ++
          ((y.dropWhile isPySpace).reverse.takeWhile isPySpace).reverse)))) := by
  obtain ⟨w1, hw1def⟩ : ∃ w1, w1 = y.takeWhile isPySpace := ⟨_, rfl⟩
  obtain ⟨w2, hw2def⟩ :
      ∃ w2, w2 = ((y.dropWhile isPySpace).reverse.takeWhile isPySpace).reverse :=
    ⟨_, rfl⟩
  have hw1mem : ∀ c ∈ w1, isPySpace c = true := by
    rw [hw1def]
    exact fun c hc => List.mem_takeWhile_imp hc
  have hw2mem : ∀ c ∈ w2, isPySpace c = true := by
    rw [hw2def]
    exact fun c hc => mem_strip_w2 hc
  have hydecomp : y = w1 ++ (pyStrip y ++ w2) := by
    rw [hw1def, hw2def]
    exact strip_decomp y
  obtain ⟨hcy, ty, hyeq⟩ : ∃ hc t, pyStrip y = hc :: t := by
    cases hzz : pyStrip y with
    | nil => exact absurd hzz hys
    | cons a b => exact ⟨a, b, rfl⟩
  have hhc : isPySpace hcy = false := pyStrip_head hyeq
  have hyNLs : '\n' ∉ pyStrip y := fun h => hyNL (mem_pyStrip h)
  have hfd := finditer_sblock he hc0 heNL hyNL hyD hyG
  have hg2txt : grpText (sblock e y)
      ⟨0, (sblock e y).length, [none, some (0, 4 + e.length), some (0, 0), none,
        some (4 + e.length, (sblock e y).length), none, none, none]⟩ 2 = [] := rfl
  have hg1txt : grpText (sblock e y)
      ⟨0, (sblock e y).length, [none, some (0, 4 + e.length), some (0, 0), none,
        some (4 + e.length, (sblock e y).length), none, none, none]⟩ 1 =
      ">>> ".data ++ e := by
    show ((sblock e y).drop 0).take (4 + e.length - 0) = ">>> ".data ++ e
    have hsplit : (sblock e y).drop 0 = (">>> ".data ++ e) ++ '\n' :: y :=
      (List.append_assoc ">>> ".data e ('\n' :: y)).symm
    rw [hsplit]
    have hlen : (">>> ".data ++ e).length = 4 + e.length - 0 := by
      rw [List.length_append]
      rfl
    rw [← hlen]
    exact List.take_left _ _
  have hg4txt : grpText (sblock e y)
      ⟨0, (sblock e y).length, [none, some (0, 4 + e.length), some (0, 0), none,
        some (4 + e.length, (sblock e y).length), none, none, none]⟩ 4 =
      '\n' :: y := by
    show ((sblock e y).drop (4 + e.length)).take
      ((sblock e y).length - (4 + e.length)) = '\n' :: y
    rw [sblock_drop_pe e y, sblock_length e y]
    rw [show 5 + e.length + y.length - (4 + e.length) = y.length + 1 from by omega]
    exact List.take_of_length_le (by simp)
  have hstrip : pyStrip ('\n' :: y) = pyStrip y := by
    show ((('\n' :: y).dropWhile isPySpace).reverse.dropWhile isPySpace).reverse = _
    rw [List.dropWhile_cons_of_pos (by rfl)]
    rfl
  have hne : ¬ ((pyStrip y).isEmpty = true) := by
    rw [hyeq]
    exact Bool.false_ne_true
  have hsdec : sblock e y = (">>> ".data ++ (e ++ ('\n' :: w1))) ++ (pyStrip y ++ w2) := by
    show ">>> ".data ++ (e ++ '\n' :: y) = _
    conv_lhs => rw [hydecomp]
    simp only [List.append_assoc, List.cons_append]
  have hfuel1 : (">>> ".data ++ (e ++ ('\n' :: w1))).length ≤
      ((">>> ".data ++ (e ++ ('\n' :: w1))) ++ (pyStrip y ++ w2)).length := by
    simp only [List.length_append, List.length_cons]
    omega
  have hskip : ∀ t, t <:+ (">>> ".data ++ (e ++ ('\n' :: w1))) → t ≠ [] →
      ¬ (pyStrip y <+: t ++ (pyStrip y ++ w2)) := by
    intro t ht htne
    have ht2 : t <:+ (">>> ".data ++ e) ++ ('\n' :: w1) := by
      rw [List.append_assoc]
      exact ht
    rcases suffix_append_cases ht2 with h1 | ⟨t1, ht1, rfl⟩
    · refine not_prefix_of_space_head hyeq hhc htne ?_
      intro c hcHead
      have hmem : c ∈ t := by
        cases t with
        | nil => simp at hcHead
        | cons a b =>
          obtain rfl : a = c := Option.some.inj hcHead
          exact List.mem_cons_self _ _
      have hmem2 : c ∈ '\n' :: w1 := h1.subset hmem
      rcases List.mem_cons.mp hmem2 with rfl | h3
      · rfl
      · exact hw1mem c h3
    · rcases eq_or_ne t1 [] with rfl | ht1ne
      · refine not_prefix_of_space_head hyeq hhc htne ?_
        intro c hcHead
        have h3 : some '\n' = some c := hcHead
        obtain rfl := Option.some.inj h3
        rfl
      · have hcross := @not_prefix_crossing (pyStrip y) (">>> ".data ++ e) t1
          (w1 ++ (pyStrip y ++ w2)) hyNLs hyO ht1
        intro hp
        apply hcross
        rw [show (t1 ++ ('\n' :: w1)) ++ (pyStrip y ++ w2) =
            t1 ++ '\n' :: (w1 ++ (pyStrip y ++ w2)) from by
          simp only [List.append_assoc, List.cons_append]] at hp
        exact hp
  have hF1 : 1 ≤ ((">>> ".data ++ (e ++ ('\n' :: w1))) ++ (pyStrip y ++ w2)).length -
      (">>> ".data ++ (e ++ ('\n' :: w1))).length := by
    simp only [List.length_append, List.length_cons, hyeq]
    omega
  have hno2 : ¬ (pyStrip y <:+: w2) := no_infix_of_space_all hyeq hhc hw2mem
  have hacc1 : pyReplace (sblock e y) (pyStrip y) [] =
      (">>> ".data ++ e) ++ ('\n' :: (w1 ++ w2)) := by
    unfold pyReplace
    rw [if_neg hne]
    conv_lhs => rw [hsdec]
    rw [pyReplaceAux_skip (">>> ".data ++ (e ++ ('\n' :: w1))) _ hfuel1 hskip]
    rw [pyReplaceAux_hit hys _ _ hF1]
    rw [List.nil_append]
    rw [pyReplaceAux_no_occur _ w2 hno2]
    simp only [List.append_assoc, List.cons_append]
  have horg : pyReplace (">>> ".data ++ e) (pyStrip y) [] = ">>> ".data ++ e :=
    pyReplace_no_occur hys hyO
  have hcode1 : pyReplace (">>> ".data ++ e) ">>> ".data [] = e := by
    show pyReplaceAux ">>> ".data [] (">>> ".data ++ e).length (">>> ".data ++ e) = e
    rw [show ((">>> ".data ++ e).length) = 4 + e.length from by
      rw [List.length_append]; rfl]
    rw [pyReplaceAux_hit (by decide) e (4 + e.length) (by omega)]
    rw [List.nil_append]
    exact pyReplaceAux_no_occur _ e heG
  have hcode : pyReplace (pyReplace (">>> ".data ++ e) ">>> ".data [])
      "... ".data [] = e := by
    rw [hcode1]
    exact pyReplace_no_occur (by decide) heD
  have hallsp : ∀ c ∈ '\n' :: (w1 ++ w2), isPySpace c = true := by
    intro c hc
    rcases List.mem_cons.mp hc with rfl | hc2
    · rfl
    · rcases List.mem_append.mp hc2 with h3 | h3
      · exact hw1mem c h3
      · exact hw2mem c h3
  have hOCne : ">>> ".data ++ e ≠ [] := fun h =>
    absurd (List.append_eq_nil.mp h).1 (by decide)
  have hOCno : ¬ ((">>> ".data ++ e) <:+: '\n' :: (w1 ++ w2)) :=
    no_infix_of_space_all (show ">>> ".data ++ e = '>' :: (">> ".data ++ e) from rfl)
      (show isPySpace '>' = false from rfl) hallsp
  have hfin : ∀ fen : List Char,
      pyReplace ((">>> ".data ++ e) ++ ('\n' :: (w1 ++ w2))) (">>> ".data ++ e) fen =
        fen ++ ('\n' :: (w1 ++ w2)) := by
    intro fen
    show pyReplaceAux (">>> ".data ++ e) fen
      (((">>> ".data ++ e) ++ ('\n' :: (w1 ++ w2))).length)
      ((">>> ".data ++ e) ++ ('\n' :: (w1 ++ w2))) = _
    rw [pyReplaceAux_hit hOCne _ _ (by
      simp only [List.length_append, List.length_cons]
      omega)]
    rw [pyReplaceAux_no_occur _ ('\n' :: (w1 ++ w2)) hOCno]
  show String.mk ((finditer pdPat (sblock e y)).foldl
    (pdStep (sblock e y)) (sblock e y)) = _
  rw [hfd]
  rw [List.foldl_cons, List.foldl_nil]
  refine congrArg String.mk ?_
  rw [← hw1def, ← hw2def]
  simp only [pdStep, hg2txt, hg1txt, hg4txt, hstrip, hacc1, horg, hcode,
    List.nil_append, List.append_nil, hfin]
  simp only [List.append_assoc, List.cons_append, List.nil_append]

/-! ### C2: doctest folding -/

/-- C2 (corrected).  `process_doctest` replaces a doctest block by a
fenced code block whose content is the input lines with the prompt
markers stripped AND with every occurrence of the block's stripped
recorded output deleted (the output text is removed globally by
`str.replace`, including from within the input lines).  Proven here
symbolically for every single-block document `">>> e\ny"` whose
expression `e` starts with a non-space character and contains no
newline and no prompt marker, and whose recorded output line `y`
contains no newline, does not look like a continuation or prompt
line, and has non-empty stripped content that does not occur inside
`">>> e"`: the result is exactly the fenced block
`"` + three backticks + `"{python}\ne\n"` + three backticks + `"\n"`
followed by the whitespace fringes of `y` -- the entire stripped
output is deleted and only the prompt-stripped input survives. -/
theorem c2_doctest_folding (e y : List Char) (c0 : Char) (e2 : List Char)
    (he : e = c0 :: e2) (hc0 : isPySpace c0 = false)
    (heNL : '\n' ∉ e) (hyNL : '\n' ∉ y)
    (hyD : ¬ ("...".data <+: y)) (hyG : ¬ (">>>".data <+: y))
    (hys : pyStrip y ≠ [])
    (hyO : ¬ (pyStrip y <:+: (">>> ".data ++ e)))
    (heG : ¬ (">>> ".data <:+: e)) (heD : ¬ ("... ".data <:+: e)) :
    process_doctest (String.mk (sblock e y)) =
      String.mk ("```\x7bpython\x7d\n".data ++ (e ++ ("\n```\n".data ++
        (y.takeWhile isPySpace ++
          ((y.dropWhile isPySpace).reverse.takeWhile isPySpace).reverse)))) :=
  process_doctest_single_block he hc0 heNL hyNL hyD hyG hys hyO heG heD

/-- Witness for C2 at the claim's own example `">>> 1+1\n2"`: every
hypothesis holds, the symbolic result specializes to the claimed
fenced block, and no `2` survives in the output. -/
theorem c2_doctest_folding_witness :
    ("1+1".data = '1' :: "+1".data) ∧ isPySpace '1' = false ∧
    '\n' ∉ "1+1".data ∧ '\n' ∉ "2".data ∧
    ¬ ("...".data <+: "2".data) ∧ ¬ (">>>".data <+: "2".data) ∧
    pyStrip "2".data ≠ [] ∧
    ¬ (pyStrip "2".data <:+: (">>> ".data ++ "1+1".data)) ∧
    ¬ (">>> ".data <:+: "1+1".data) ∧ ¬ ("... ".data <:+: "1+1".data) ∧
    process_doctest (String.mk (sblock "1+1".data "2".data)) =
      String.mk ("```\x7bpython\x7d\n".data ++ ("1+1".data ++ ("\n```\n".data ++
        ("2".data.takeWhile isPySpace ++
          (("2".data.dropWhile isPySpace).reverse.takeWhile isPySpace).reverse)))) ∧
    String.mk (sblock "1+1".data "2".data) = ">>> 1+1\n2" ∧
    process_doctest ">>> 1+1\n2" = "```\x7bpython\x7d\n1+1\n```\n" ∧
    occurs "2" (process_doctest ">>> 1+1\n2") = false :=
  ⟨rfl, rfl, by decide, by decide, by decide, by decide, by decide, by decide,
   by decide, by decide,
   c2_doctest_folding "1+1".data "2".data '1' "+1".data rfl rfl (by decide)
     (by decide) (by decide) (by decide) (by decide) (by decide) (by decide)
     (by decide),
   by decide, by decide, by decide⟩

/-- Counterexample to C2 as stated: for the documentation text
`">>> print(2)\n2"` the claim predicts a fenced code block containing
only the input line with its prompt stripped, `print(2)`; but the
result does not contain `print(2)` at all -- the recorded output `2`
has also been deleted from inside the input line. -/
theorem c2_doctest_folding_counterexample :
    occurs "print(2)" ">>> print(2)\n2" = true ∧
    occurs "print(2)" (process_doctest ">>> print(2)\n2") = false ∧
    process_doctest ">>> print(2)\n2" = "```\x7bpython\x7d\nprint()\n```\n" := by
  refine ⟨by decide, by decide, by decide⟩

/-! ### C6: idempotence of doctest folding -/

/-- C6 (corrected).  `process_doctest` is the identity on any document
in which it finds no doctest block, hence it is idempotent on every
output that contains no doctest match; outputs that still contain a
prompt-shaped block (possible when deleting the recorded output text
uncovers a prompt at the start of a line) can be transformed again. -/
theorem c6_idempotent_on_foldfree_output (d : String)
    (h : finditer pdPat (process_doctest d).data = []) :
    process_doctest (process_doctest d) = process_doctest d := by
  have h2 : process_doctest (process_doctest d) =
      String.mk ((finditer pdPat (process_doctest d).data).foldl
        (pdStep (process_doctest d).data) (process_doctest d).data) := rfl
  rw [h2, h]
  rfl

/-- Witness for C6: the claim's example document. -/
theorem c6_idempotent_on_foldfree_output_witness :
    finditer pdPat (process_doctest ">>> 1+1\n2").data = [] ∧
    process_doctest (process_doctest ">>> 1+1\n2") = process_doctest ">>> 1+1\n2" :=
  ⟨by decide, c6_idempotent_on_foldfree_output ">>> 1+1\n2" (by decide)⟩

/-- Counterexample to C6 as stated: on the document
`"x>>> 1\nx>>> 2\nx"` (escaped here: `x>>> 1`, newline, `>>> 2`,
newline, `x`), deleting the recorded output text `x` uncovers a new
doctest block `>>> 1` at the start of the first line, so a second
application changes the result again. -/
theorem c6_idempotent_counterexample :
    process_doctest (process_doctest "x>>> 1\n>>> 2\nx") ≠
      process_doctest "x>>> 1\n>>> 2\nx" := by decide

/-! ### C7: pass-through without field lines -/

/-- C7 (corrected).  A docstring with no field-list line is returned
unchanged by `process_rst_args` PROVIDED it also contains no match of
the bracketed-type pattern `(list|tuple|Literal|Union|Optional)[...]`:
the bracket-space normalization runs before the field-list gate and
can modify a docstring with no field lines. -/
theorem c7_no_field_lines_passthrough (gettext fixCode : String → String)
    (func : PyFunc) (doc : String)
    (hbr : reSearch litBracketPat doc.data = none)
    (hgate : reSearch gatePat doc.data = none) :
    process_rst_args gettext fixCode doc func = doc := by
  unfold process_rst_args
  simp only [hbr, hgate]

/-- Witness for C7: a docstring with neither field lines nor bracketed
types passes through unchanged. -/
theorem c7_no_field_lines_passthrough_witness :
    reSearch litBracketPat ("no fields here" : String).data = none ∧
    reSearch gatePat ("no fields here" : String).data = none ∧
    process_rst_args id id "no fields here" pyF = "no fields here" :=
  ⟨by decide, by decide,
    c7_no_field_lines_passthrough id id pyF "no fields here" (by decide) (by decide)⟩

/-- Counterexample to C7 as stated: the docstring `"a list[ 1 ] b"`
contains no field-list line, yet `process_rst_args` does not return it
unchanged -- the spaces inside the bracketed type are removed. -/
theorem c7_no_field_lines_counterexample :
    process_rst_args id id "a list[ 1 ] b" pyF = "a list[1] b" ∧
    "a list[1] b" ≠ ("a list[ 1 ] b" : String) := by
  refine ⟨by decide, by decide⟩

/-! ### C4: field-list rewriting -/

/-- C4 (code bug).  A `:param T n:` line is rewritten to a bullet with
the parameter name and the type each in an inline code span, and a
`:return T:` line to a bullet with the localized RETURN label and the
type in an inline code span, as the claim states; but for a
`:raises T:` line the source swaps the closing backtick and the
closing parenthesis, emitting ``(`T)` `` -- the code span contains
`T)` rather than the type alone, so the claimed bullet text
`` (`ValueError`) `` never appears. -/
theorem c4_raises_label_bug :
    process_rst_args id id ":param str x: desc" pyF =
      "\n```python\nf(\n    x,\n)\n```\n- `x` (`str`): desc" ∧
    process_rst_args id id ":return int: result" pyF =
      "\n```python\nf(\n    x,\n)\n```\n- RETURN (`int`): result" ∧
    process_rst_args id id ":raises ValueError: boom" pyF =
      "\n```python\nf(\n    x,\n)\n```\n- RAISE (`ValueError)`: boom" ∧
    occurs "(`ValueError`)" (process_rst_args id id ":raises ValueError: boom" pyF)
      = false := by
  refine ⟨by decide, by decide, by decide, by decide⟩

/-! ### C5: persistence of the default module_tree -/

/-- C5 (code bug).  Python evaluates the default value `[]` of the
`module_tree` parameter once, at function definition time, so all
calls of `walk_submodules` that omit `module_tree` append to one
shared list.  Two successive such calls on the root `p` leave the
shared default holding BOTH invocations' root nodes: the node
accumulated by the first invocation is still present (as the head)
in the list the second invocation works on, contradicting the claim
that no earlier node appears in a later invocation's result.  A
single fresh call produces `[pTree]` alone. -/
theorem c5_default_tree_persistence :
    walk_default_calls envA 3 ["p", "p"] [] = some [pTree, pTree] ∧
    (walk_submodules envA 3 "p" []).map Prod.fst = some [pTree] := by
  refine ⟨rfl, rfl⟩

/-! ### C10: the frame effect of one walk call -/

/-- C10 (confirmed).  Every successful call of `walk_submodules`
appends exactly one element to the supplied `module_tree` -- the node
pairing the resolved root module with the concatenated subtrees of
its children -- and leaves every element already present unchanged
(the result is the supplied list extended by the single new node). -/
theorem c10_appends_single_node (env : Env) (fuel : Nat) (f : String)
    (tree res : List ModTree) (evs : List Event)
    (h : walk_submodules env fuel f tree = some (res, evs)) :
    ∃ mod sub evs2,
      env f = some mod ∧
      walk_children (fun n => walk_submodules env (fuel - 1) n []) mod
        (list_submodules_core env f mod) = some (sub, evs2) ∧
      res = tree ++ [ModTree.node mod sub] ∧
      evs = Event.onMod mod :: evs2 := by
  cases fuel with
  | zero => simp [walk_submodules] at h
  | succ fuel =>
    unfold walk_submodules at h
    split at h
    · simp at h
    · rename_i mod hmod
      split at h
      · simp at h
      · rename_i sub evs2 hch
        simp only [Option.some.injEq, Prod.mk.injEq] at h
        refine ⟨mod, sub, evs2, hmod, ?_, h.1.symm, h.2.symm⟩
        simpa using hch

/-- Witness for C10: walking `p` in `envA` with a pre-existing node in
the supplied list appends exactly one node after it. -/
theorem c10_appends_single_node_witness :
    walk_submodules envA 3 "p" [pTree] = some ([pTree, pTree], pEvents) ∧
    (∃ mod sub evs2,
      envA "p" = some mod ∧
      walk_children (fun n => walk_submodules envA (3 - 1) n []) mod
        (list_submodules_core envA "p" mod) = some (sub, evs2) ∧
      [pTree, pTree] = [pTree] ++ [ModTree.node mod sub] ∧
      pEvents = Event.onMod mod :: evs2) :=
  ⟨rfl, c10_appends_single_node envA 3 "p" [pTree] [pTree, pTree] pEvents rfl⟩

/-! ### C8: callback order -/

theorem walk_children_spec (step : String → Option (List ModTree × List Event))
    (mod : Module) :
    ∀ (subs : List Module) (ts : List ModTree) (es : List Event),
      walk_children step mod subs = some (ts, es) →
      ∃ L : List (List ModTree × List Event),
        L.length = subs.length ∧
        (∀ i (h1 : i < subs.length) (h2 : i < L.length),
          step (subs.get ⟨i, h1⟩).name = some (L.get ⟨i, h2⟩)) ∧
        ts = (L.map Prod.fst).flatten ∧
        es = ((subs.zip L).map (fun p => Event.onSubmod mod p.1 :: p.2.2)).flatten := by
  intro subs
  induction subs with
  | nil =>
    intro ts es h
    simp only [walk_children, Option.some.injEq, Prod.mk.injEq] at h
    refine ⟨[], rfl, ?_, ?_, ?_⟩
    · intro i h1 h2
      exact absurd h1 (Nat.not_lt_zero i)
    · rw [← h.1]
      simp
    · rw [← h.2]
      simp
  | cons s rest ih =>
    intro ts es h
    unfold walk_children at h
    rcases hs : step s.name with _ | ⟨t, e⟩ <;> rw [hs] at h
    · simp at h
    · rcases hr : walk_children step mod rest with _ | ⟨ts2, es2⟩ <;> rw [hr] at h
      · simp at h
      · simp only [Option.some.injEq, Prod.mk.injEq] at h
        obtain ⟨L, hL1, hL2, hL3, hL4⟩ := ih ts2 es2 hr
        refine ⟨(t, e) :: L, by simp [hL1], ?_, ?_, ?_⟩
        · intro i h1 h2
          cases i with
          | zero => simpa using hs
          | succ j =>
            exact hL2 j (by simpa using h1) (by simpa using h2)
        · rw [← h.1, hL3]
          simp
        · rw [← h.2, hL4]
          simp

/-- C8 (confirmed).  On any successful walk, the callback trace
begins with `on_mod` applied to the resolved root (so a module's
callback precedes every event of its descendants), and then consists,
for each child of `list_submodules` in the resolved sorted order, of
`on_submod(parent, child)` immediately followed by the entire trace
of the recursive walk into that child. -/
theorem c8_preorder_callbacks (env : Env) (fuel : Nat) (f : String)
    (tree res : List ModTree) (evs : List Event)
    (h : walk_submodules env (fuel + 1) f tree = some (res, evs)) :
    ∃ mod L,
      env f = some mod ∧
      L.length = (list_submodules_core env f mod).length ∧
      (∀ i (h1 : i < (list_submodules_core env f mod).length) (h2 : i < L.length),
        walk_submodules env fuel ((list_submodules_core env f mod).get ⟨i, h1⟩).name []
          = some (L.get ⟨i, h2⟩)) ∧
      evs = Event.onMod mod ::
        (((list_submodules_core env f mod).zip L).map
          (fun p => Event.onSubmod mod p.1 :: p.2.2)).flatten := by
  unfold walk_submodules at h
  split at h
  · simp at h
  · rename_i mod hmod
    split at h
    · simp at h
    · rename_i sub evs2 hch
      simp only [Option.some.injEq, Prod.mk.injEq] at h
      obtain ⟨L, hL1, hL2, _, hL4⟩ :=
        walk_children_spec _ mod (list_submodules_core env f mod) sub evs2 hch
      exact ⟨mod, L, hmod, hL1, hL2, by rw [← h.2, hL4]⟩

/-- Witness for C8: walking `p` in `envA` produces the trace
`on_mod p`, `on_submod p p.a`, `on_mod p.a`, `on_submod p p.b`,
`on_mod p.b`. -/
theorem c8_preorder_callbacks_witness :
    walk_submodules envA (2 + 1) "p" [] = some ([pTree], pEvents) ∧
    (∃ mod L,
      envA "p" = some mod ∧
      L.length = (list_submodules_core envA "p" mod).length ∧
      (∀ i (h1 : i < (list_submodules_core envA "p" mod).length) (h2 : i < L.length),
        walk_submodules envA 2 ((list_submodules_core envA "p" mod).get ⟨i, h1⟩).name []
          = some (L.get ⟨i, h2⟩)) ∧
      pEvents = Event.onMod mod ::
        (((list_submodules_core envA "p" mod).zip L).map
          (fun p => Event.onSubmod mod p.1 :: p.2.2)).flatten) :=
  ⟨rfl, c8_preorder_callbacks envA 2 "p" [] [pTree] pEvents rfl⟩

/-! ### C9: error handling -/

theorem mem_core_imported (env : Env) (f : String) (mod : Module) (m : Module)
    (hm : m ∈ list_submodules_core env f mod) : ∃ n, env n = some m := by
  rcases List.mem_filterMap.mp ((mem_core_iff_mem_filterMap env f mod m).mp hm)
    with ⟨n, _, hn⟩
  exact ⟨n, hn⟩

theorem walk_children_sound (env : Env)
    (step : String → Option (List ModTree × List Event)) (mod : Module)
    (hstep : ∀ n r, step n = some r →
      (∀ p c, Event.onSubmod p c ∈ r.2 → ∃ nn, env nn = some c) ∧
      (∀ t ∈ r.1, ResolvedTree env t)) :
    ∀ (subs : List Module), (∀ s ∈ subs, ∃ n, env n = some s) →
      ∀ ts es, walk_children step mod subs = some (ts, es) →
        (∀ p c, Event.onSubmod p c ∈ es → ∃ n, env n = some c) ∧
        (∀ t ∈ ts, ResolvedTree env t) := by
  intro subs
  induction subs with
  | nil =>
    intro _ ts es h
    simp only [walk_children, Option.some.injEq, Prod.mk.injEq] at h
    refine ⟨?_, ?_⟩
    · intro p c hc
      rw [← h.2] at hc
      cases hc
    · intro t ht
      rw [← h.1] at ht
      cases ht
  | cons s rest ih =>
    intro hsubs ts es h
    unfold walk_children at h
    rcases hs : step s.name with _ | ⟨t, e⟩ <;> rw [hs] at h
    · simp at h
    · rcases hr : walk_children step mod rest with _ | ⟨ts2, es2⟩ <;> rw [hr] at h
      · simp at h
      · simp only [Option.some.injEq, Prod.mk.injEq] at h
        have hrec := ih (fun x hx => hsubs x (List.mem_cons_of_mem s hx)) ts2 es2 hr
        have hone := hstep s.name (t, e) hs
        constructor
        · intro p c hc
          rw [← h.2] at hc
          rcases List.mem_cons.mp hc with hc | hc
          · cases hc
            exact hsubs s (List.mem_cons_self s rest)
          · rcases List.mem_append.mp hc with hc | hc
            · exact hone.1 p c hc
            · exact hrec.1 p c hc
        · intro x hx
          rw [← h.1] at hx
          rcases List.mem_append.mp hx with hx | hx
          · exact hone.2 x hx
          · exact hrec.2 x hx

theorem walk_sound (env : Env) :
    ∀ (fuel : Nat) (f : String) (tree res : List ModTree) (evs : List Event),
      walk_submodules env fuel f tree = some (res, evs) →
        (∀ p c, Event.onSubmod p c ∈ evs → ∃ n, env n = some c) ∧
        (∀ t ∈ res, t ∈ tree ∨ ResolvedTree env t) := by
  intro fuel
  induction fuel with
  | zero => intro f tree res evs h; simp [walk_submodules] at h
  | succ fuel ih =>
    intro f tree res evs h
    unfold walk_submodules at h
    split at h
    · simp at h
    · rename_i mod hmod
      split at h
      · simp at h
      · rename_i sub evs2 hch
        simp only [Option.some.injEq, Prod.mk.injEq] at h
        have hstep : ∀ n r, walk_submodules env fuel n [] = some r →
            (∀ p c, Event.onSubmod p c ∈ r.2 → ∃ nn, env nn = some c) ∧
            (∀ t ∈ r.1, ResolvedTree env t) := by
          intro n r hr
          obtain ⟨r1, r2⟩ := r
          have h2 := ih n [] r1 r2 hr
          exact ⟨h2.1, fun t ht => (h2.2 t ht).resolve_left (List.not_mem_nil t)⟩
        have hmain := walk_children_sound env _ mod hstep
          (list_submodules_core env f mod)
          (fun s hsm => mem_core_imported env f mod s hsm) sub evs2 hch
        constructor
        · intro p c hc
          rw [← h.2] at hc
          rcases List.mem_cons.mp hc with hc | hc
          · cases hc
          · exact hmain.1 p c hc
        · intro t ht
          rw [← h.1] at ht
          rcases List.mem_append.mp ht with ht | ht
          · exact Or.inl ht
          · right
            have ht2 : t = ModTree.node mod sub := List.mem_singleton.mp ht
            subst ht2
            exact ResolvedTree.node mod sub ⟨f, hmod⟩ hmain.2

/-- C9 (confirmed).  A failure to resolve the root makes the whole
walk fail (the exception propagates: the result is `none`), whereas a
child that fails to import never appears: every module enumerated by
`list_submodules` was imported successfully, every child passed to the
`on_submod` callback during a successful walk was imported
successfully, and every node added to the result tree is built
entirely from successfully imported modules (no partial subtree). -/
theorem c9_error_propagation :
    (∀ (env : Env) (fuel : Nat) (f : String) (tree : List ModTree),
      env f = none → walk_submodules env fuel f tree = none) ∧
    (∀ (env : Env) (f : String) (mod m : Module),
      m ∈ list_submodules_core env f mod → ∃ n, env n = some m) ∧
    (∀ (env : Env) (fuel : Nat) (f : String) (tree res : List ModTree)
        (evs : List Event),
      walk_submodules env fuel f tree = some (res, evs) →
      (∀ p c, Event.onSubmod p c ∈ evs → ∃ n, env n = some c) ∧
      (∀ t ∈ res, t ∈ tree ∨ ResolvedTree env t)) := by
  refine ⟨?_, ?_, ?_⟩
  · intro env fuel f tree hroot
    cases fuel with
    | zero => rfl
    | succ fuel => unfold walk_submodules; rw [hroot]
  · intro env f mod m hm
    exact mem_core_imported env f mod m hm
  · intro env fuel f tree res evs h
    exact walk_sound env fuel f tree res evs h

/-- Witness for C9: in `envA` the unresolvable root `p.zz` makes the
walk return `none`, while a successful walk of `p` (whose child `p.c`
fails to import) invokes `on_submod` only on imported modules and
builds a fully resolved tree. -/
theorem c9_error_propagation_witness :
    envA "p.zz" = none ∧
    walk_submodules envA 5 "p.zz" [] = none ∧
    ((∀ p c, Event.onSubmod p c ∈ pEvents → ∃ n, envA n = some c) ∧
      (∀ t ∈ [pTree], t ∈ ([] : List ModTree) ∨ ResolvedTree envA t)) :=
  ⟨rfl, c9_error_propagation.1 envA 5 "p.zz" [] rfl,
    c9_error_propagation.2.2 envA 3 "p" [] [pTree] pEvents rfl⟩

end Qpydoc
